import Mathlib

/-!
Verification of the README update/merge engine of `src/readmeUpdater.js`.

Strings are modelled as `List Char`; every function below is a direct
shallow embedding of the corresponding JavaScript function.  JavaScript
regular expressions are embedded as deterministic character-level matchers
(the patterns used by the source contain no ambiguity: every quantified
class is disjoint from the character that follows it, so greedy matching
never backtracks except where noted in comments).

`String.toLowerCase` is embedded as ASCII lowercasing: all inputs of
interest are ASCII, and non-ASCII letters are removed by the surrounding
`[^a-z0-9\s]` strips in the source before they could matter.
-/

/-- JavaScript `\s` character class (WhiteSpace ∪ LineTerminator), also the
set trimmed by `String.prototype.trim`. -/
def jsWS (c : Char) : Bool :=
  c = ' ' || c = '\t' || c = '\n' || c = '\r' ||
  c = '\x0b' || c = '\x0c' || c = ' ' || c = ' ' ||
  (' ' ≤ c && c ≤ ' ') || c = ' ' || c = ' ' ||
  c = ' ' || c = ' ' || c = '　' || c = '﻿'

/-- JavaScript line terminators (the characters `.` refuses to match). -/
def lineTerm (c : Char) : Bool :=
  c = '\n' || c = '\r' || c = ' ' || c = ' '

/-- JavaScript `\d`. -/
def isDigitC (c : Char) : Bool := '0' ≤ c && c ≤ '9'

/-- JavaScript `\w` (the word characters consulted by `\b`). -/
def isWordC (c : Char) : Bool :=
  ('a' ≤ c && c ≤ 'z') || ('A' ≤ c && c ≤ 'Z') || ('0' ≤ c && c ≤ '9') || c = '_'

/-- ASCII lowercasing, embedding `String.prototype.toLowerCase`. -/
def asciiLower (c : Char) : Char :=
  if 'A' ≤ c ∧ c ≤ 'Z' then Char.ofNat (c.toNat + 32) else c

/-- `content.split('\n')` : always returns at least one (possibly empty) line. -/
def splitNl : List Char → List (List Char)
  | [] => [[]]
  | c :: cs =>
    if c = '\n' then [] :: splitNl cs
    else
      match splitNl cs with
      | [] => [[c]]
      | l :: ls => (c :: l) :: ls

/-- `lines.join('\n')`. -/
def joinNl : List (List Char) → List Char
  | [] => []
  | [l] => l
  | l :: l' :: ls => l ++ '\n' :: joinNl (l' :: ls)

/-- `String.prototype.trim` (both ends, JavaScript whitespace set). -/
def jsTrim (s : List Char) : List Char :=
  ((s.dropWhile jsWS).reverse.dropWhile jsWS).reverse

/-- Substring test, embedding `String.prototype.includes`. -/
def containsSub : List Char → List Char → Bool
  | [], sub => sub.isEmpty
  | c :: cs, sub => sub.isPrefixOf (c :: cs) || containsSub cs sub

/-- `line.match(/^(#{1,6})\s+(.+)$/)`, returning the heading level and the
trimmed title (`match[2].trim()`).  The backtracking case: when everything
after the hashes is whitespace, `\s+` gives back one character to `(.+)`
provided at least two whitespace characters are present and the last one is
not a line terminator; the captured title then trims to the empty string. -/
def parseHeading (line : List Char) : Option (Nat × List Char) :=
  let k := (line.takeWhile (fun c => c = '#')).length
  if k = 0 ∨ 6 < k then none
  else
    let t := line.drop k
    let w := t.takeWhile jsWS
    let rest := t.drop w.length
    if w.isEmpty then none
    else if !rest.isEmpty then
      if rest.any lineTerm then none else some (k, jsTrim rest)
    else
      match w.getLast? with
      | some c => if 2 ≤ w.length ∧ ¬ lineTerm c then some (k, []) else none
      | none => none

/-- Decides `/^#{1,6}\s+/.test(line)` (the header-scan break in
`getHeaderContent`): 1–6 hashes followed by at least one whitespace. -/
def breakLine (line : List Char) : Bool :=
  let k := (line.takeWhile (fun c => c = '#')).length
  (decide (1 ≤ k ∧ k ≤ 6)) &&
    (match (line.drop k).head? with
     | some c => jsWS c
     | none => false)

/-- A parsed markdown section (the object pushed by `extractSections`). -/
structure MdSection where
  level : Nat
  title : List Char
  content : List Char
  startLine : Nat
  endLine : Nat
  rawTitle : List Char
deriving DecidableEq

/-- The open-section state of the `extractSections` loop:
(level, startLine, title, rawTitle). -/
abbrev CurSec := Nat × Nat × List Char × List Char

/-- Closing a section: `content: currentContent.join('\n').trim()`. -/
def closeSec (cur : CurSec) (acc : List (List Char)) (endL : Nat) : MdSection :=
  { level := cur.1, startLine := cur.2.1, title := cur.2.2.1, rawTitle := cur.2.2.2,
    content := jsTrim (joinNl acc), endLine := endL }

/-- The line-scanning loop of `extractSections`.  `i` is the current line
index, the `Option CurSec` the currently open section, `acc` its
accumulated content lines. -/
def extractGo : List (List Char) → Nat → Option CurSec → List (List Char) → List MdSection
  | [], i, cur, acc =>
    match cur with
    | some c => [closeSec c acc (i - 1)]
    | none => []
  | l :: ls, i, cur, acc =>
    match parseHeading l with
    | some kt =>
      (match cur with
       | some c => [closeSec c acc (i - 1)]
       | none => []) ++ extractGo ls (i + 1) (some (kt.1, i, kt.2, l)) []
    | none =>
      match cur with
      | some c => extractGo ls (i + 1) (some c) (acc ++ [l])
      | none => extractGo ls (i + 1) none acc

/-- `extractSections` on a character list. -/
def extractSectionsL (content : List Char) : List MdSection :=
  extractGo (splitNl content) 0 none []

/-- `extractSections(content)`. -/
def extractSections (content : String) : List MdSection :=
  extractSectionsL content.data

/-- `getHeaderContent` on a character list: all lines before the first
line matching `/^#{1,6}\s+/`, joined, trimmed, plus two newlines. -/
def getHeaderContentL (content : List Char) : List Char :=
  jsTrim (joinNl ((splitNl content).takeWhile (fun l => !breakLine l))) ++ ['\n', '\n']

/-- `getHeaderContent(content)`. -/
def getHeaderContent (content : String) : String :=
  ⟨getHeaderContentL content.data⟩

/-- One step of `.replace(/\s+/g, ' ')`: the flag records whether the
previous character was whitespace (i.e. we are inside a collapsed run). -/
def collapseGo : Bool → List Char → List Char
  | _, [] => []
  | prevWS, c :: cs =>
    if jsWS c then
      if prevWS then collapseGo true cs else ' ' :: collapseGo true cs
    else c :: collapseGo false cs

/-- `.replace(/\s+/g, ' ')`. -/
def collapseWS (s : List Char) : List Char := collapseGo false s

/-- Characters kept by `.replace(/[^a-z0-9\s]/g, '')` (after lowercasing). -/
def keptChar (c : Char) : Bool :=
  ('a' ≤ c && c ≤ 'z') || ('0' ≤ c && c ≤ '9') || jsWS c

/-- `normalizeTitle` on a character list. -/
def normalizeTitleL (t : List Char) : List Char :=
  jsTrim (collapseWS ((t.map asciiLower).filter keptChar))

/-- `normalizeTitle(title)`. -/
def normalizeTitle (t : String) : String := ⟨normalizeTitleL t.data⟩

example : normalizeTitleL "  Instal-lation  Guide! ".data = "installation guide".data := by decide
example : parseHeading "## My Custom Notes".data = some (2, "My Custom Notes".data) := by decide
example : parseHeading "####### nope".data = none := by decide
example : parseHeading "##  ".data = some (2, []) := by decide
example : parseHeading "## ".data = none := by decide
example : extractSectionsL "# A\nbody\n## B\nmore".data =
    [⟨1, "A".data, "body".data, 0, 1, "# A".data⟩,
     ⟨2, "B".data, "more".data, 2, 3, "## B".data⟩] := by decide

/-- The standard-section vocabulary of `identifyCustomSections` (22 entries). -/
def standardSections22 : List (List Char) :=
  ["installation", "install", "getting started", "usage", "features",
   "requirements", "prerequisites", "contributing", "license", "documentation",
   "examples", "api", "configuration", "testing", "deployment", "support",
   "changelog", "roadmap", "acknowledgments", "authors", "faq",
   "troubleshooting"].map String.data

/-- The standard-section vocabulary of `isCustomSection` (27 entries). -/
def standardSections27 : List (List Char) :=
  standardSections22 ++
    (["description", "about", "commands", "options", "how it works"].map String.data)

/-- `isCustomSection(normalizedTitle)`: symmetric substring match against
the 27-entry vocabulary; note that no heading level is consulted here. -/
def isCustomSection (nt : List Char) : Bool :=
  !(standardSections27.any (fun std => containsSub nt std || containsSub std nt))

/-- A custom section as returned by `identifyCustomSections`. -/
structure CustomSection where
  title : List Char
  content : List Char
  startLine : Nat
  endLine : Nat
deriving DecidableEq

/-- `identifyCustomSections(content)`: sections whose lowercased title
fails the symmetric substring match with the 22-entry vocabulary, restricted
to heading level ≤ 2. -/
def identifyCustomSectionsL (content : List Char) : List CustomSection :=
  (extractSectionsL content).filterMap fun s =>
    let nt := s.title.map asciiLower
    let isStd := standardSections22.any (fun std => containsSub nt std || containsSub std nt)
    if !isStd && decide (s.level ≤ 2) then
      some ⟨s.title, s.content, s.startLine, s.endLine⟩
    else none

def identifyCustomSections (content : String) : List CustomSection :=
  identifyCustomSectionsL content.data

/-- `shouldPreserveSection(normalizedTitle, sectionsToUpdate)`. -/
def shouldPreserveSection (nt : List Char) (sectionsToUpdate : List (List Char)) : Bool :=
  if sectionsToUpdate.isEmpty then false
  else !(sectionsToUpdate.any (fun n => normalizeTitleL n = nt))

/-- Options of `mergeReadmeContent` with the source's defaults. -/
structure MergeOptions where
  preserveCustomSections : Bool := true
  preserveHeader : Bool := false
  sectionsToUpdate : List (List Char) := []

/-- Provenance recorded on merged sections (`source: 'existing'|'new'|'custom'`). -/
inductive MergeSource where
  | existing
  | fromNew
  | custom
deriving DecidableEq

/-- An element of the `mergedSections` array: `title` holds the raw heading
line (the source stores `rawTitle` in this field), `content` the body. -/
structure MergedSec where
  title : List Char
  content : List Char
  source : MergeSource
deriving DecidableEq

/-- The first loop of `mergeReadmeContent`: one merged section per section
of the new document, preferring the existing section's raw heading and body
when a match by normalized title exists and the policy preserves it. -/
def mergeNewSections (existingSections : List MdSection) (stu : List (List Char)) :
    List MdSection → List MergedSec
  | [] => []
  | ns :: rest =>
    let nt := normalizeTitleL ns.title
    (match existingSections.find? (fun s => normalizeTitleL s.title = nt) with
     | some e =>
       if shouldPreserveSection nt stu then ⟨e.rawTitle, e.content, MergeSource.existing⟩
       else ⟨ns.rawTitle, ns.content, MergeSource.fromNew⟩
     | none => ⟨ns.rawTitle, ns.content, MergeSource.fromNew⟩) ::
      mergeNewSections existingSections stu rest

/-- The second loop of `mergeReadmeContent`: existing sections whose
normalized title was not processed by the first loop and which classify as
custom are appended.  `processed` is the set `processedSectionTitles`, which
after the first loop holds exactly the normalized titles of the new
document's sections. -/
def mergeCustoms (processed : List (List Char)) (existingSections : List MdSection) :
    List MergedSec :=
  (existingSections.filter (fun s =>
      let nt := normalizeTitleL s.title
      !(decide (nt ∈ processed)) && isCustomSection nt)).map
    (fun s => ⟨s.rawTitle, s.content, MergeSource.custom⟩)

/-- The merged section list (both loops of `mergeReadmeContent`). -/
def mergedSectionList (existingContent newContent : List Char) (opts : MergeOptions) :
    List MergedSec :=
  let existingSections := extractSectionsL existingContent
  let newSections := extractSectionsL newContent
  mergeNewSections existingSections opts.sectionsToUpdate newSections ++
    (if opts.preserveCustomSections then
      mergeCustoms (newSections.map fun s => normalizeTitleL s.title) existingSections
     else [])

/-- Serialization tail of `mergeReadmeContent`:
`result += '\n' + section.title + '\n\n' + section.content + '\n'` per
section, then `result.trim() + '\n'`. -/
def serializeMerged (header : List Char) (items : List MergedSec) : List Char :=
  jsTrim (header ++ (items.map fun it =>
    '\n' :: it.title ++ '\n' :: '\n' :: it.content ++ ['\n']).flatten) ++ ['\n']

/-- `mergeReadmeContent` on character lists. -/
def mergeReadmeContentL (existingContent newContent : List Char) (opts : MergeOptions) :
    List Char :=
  let existingHeader := getHeaderContentL existingContent
  let newHeader := getHeaderContentL newContent
  let finalHeader :=
    if opts.preserveHeader && !existingHeader.isEmpty then existingHeader else newHeader
  serializeMerged finalHeader (mergedSectionList existingContent newContent opts)

/-- `mergeReadmeContent(existingContent, newContent, options)`. -/
def mergeReadmeContent (existingContent newContent : String) (opts : MergeOptions) : String :=
  ⟨mergeReadmeContentL existingContent.data newContent.data opts⟩

/-- The result of `createDiffSummary`. -/
structure DiffSummary where
  added : List (List Char)
  removed : List (List Char)
  modified : List (List Char)
  unchanged : List (List Char)
deriving DecidableEq

/-- `createDiffSummary` on character lists.  The source's three loops are
rendered as filters: `added`/`removed` by absence of the normalized title on
the other side, `modified`/`unchanged` by one pass over the new sections
comparing trimmed bodies against the first existing section with the same
normalized title. -/
def createDiffSummaryL (oldC newC : List Char) : DiffSummary :=
  let es := extractSectionsL oldC
  let ns := extractSectionsL newC
  let eT := es.map fun s => normalizeTitleL s.title
  let nT := ns.map fun s => normalizeTitleL s.title
  { added := (ns.filter fun s => !(decide (normalizeTitleL s.title ∈ eT))).map (·.title)
    removed := (es.filter fun s => !(decide (normalizeTitleL s.title ∈ nT))).map (·.title)
    modified := (ns.filter fun s =>
      match es.find? (fun e => normalizeTitleL e.title = normalizeTitleL s.title) with
      | some e => !(decide (jsTrim e.content = jsTrim s.content))
      | none => false).map (·.title)
    unchanged := (ns.filter fun s =>
      match es.find? (fun e => normalizeTitleL e.title = normalizeTitleL s.title) with
      | some e => decide (jsTrim e.content = jsTrim s.content)
      | none => false).map (·.title) }

/-- `createDiffSummary(existingContent, newContent)`. -/
def createDiffSummary (oldC newC : String) : DiffSummary :=
  createDiffSummaryL oldC.data newC.data

/-- A badge `![alt](url)`. -/
structure Badge where
  alt : List Char
  url : List Char
deriving DecidableEq

/-- A link `[text](url)`. -/
structure MdLink where
  text : List Char
  url : List Char
deriving DecidableEq

/-- Match of `!\[([^\]]*)\]\(([^)]+)\)` at the head of `s`. -/
def matchBadgeAt (s : List Char) : Option (Badge × List Char) :=
  match s with
  | '!' :: '[' :: t =>
    let alt := t.takeWhile (fun c => !(c = ']'))
    (match t.drop alt.length with
     | ']' :: '(' :: u =>
       let url := u.takeWhile (fun c => !(c = ')'))
       if url.isEmpty then none
       else
         match u.drop url.length with
         | ')' :: rest => some (⟨alt, url⟩, rest)
         | _ => none
     | _ => none)
  | _ => none

/-- The global badge scan (`badgeRegex.exec` loop). -/
def badgeScan : Nat → List Char → List Badge
  | 0, _ => []
  | _ + 1, [] => []
  | n + 1, c :: cs =>
    match matchBadgeAt (c :: cs) with
    | some (b, rest) => b :: badgeScan n rest
    | none => badgeScan n cs

/-- Match of `\[([^\]]+)\]\(([^)]+)\)` at the head of `s`. -/
def matchLinkAt (s : List Char) : Option (MdLink × List Char) :=
  match s with
  | '[' :: t =>
    let txt := t.takeWhile (fun c => !(c = ']'))
    if txt.isEmpty then none
    else
      (match t.drop txt.length with
       | ']' :: '(' :: u =>
         let url := u.takeWhile (fun c => !(c = ')'))
         if url.isEmpty then none
         else
           match u.drop url.length with
           | ')' :: rest => some (⟨txt, url⟩, rest)
           | _ => none
       | _ => none)
  | _ => none

/-- The global link scan (`linkRegex.exec` loop), keeping only targets
starting with `http` or `#`. -/
def linkScan : Nat → List Char → List MdLink
  | 0, _ => []
  | _ + 1, [] => []
  | n + 1, c :: cs =>
    match matchLinkAt (c :: cs) with
    | some (l, rest) =>
      if ("http".data.isPrefixOf l.url || "#".data.isPrefixOf l.url)
      then l :: linkScan n rest else linkScan n rest
    | none => linkScan n cs

/-- Match of `\d+\.\d+\.\d+` at the head of `s` (all three runs greedy);
returns the matched text and the remainder. -/
def matchTriple (s : List Char) : Option (List Char × List Char) :=
  let d1 := s.takeWhile isDigitC
  if d1.isEmpty then none
  else
    match s.drop d1.length with
    | '.' :: t2 =>
      let d2 := t2.takeWhile isDigitC
      if d2.isEmpty then none
      else
        match t2.drop d2.length with
        | '.' :: t3 =>
          let d3 := t3.takeWhile isDigitC
          if d3.isEmpty then none
          else some (d1 ++ '.' :: d2 ++ '.' :: d3, t3.drop d3.length)
        | _ => none
    | _ => none

/-- Case-insensitive literal: returns the consumed original characters and
the remainder when the ASCII-lowercased prefix of `s` equals `lit`. -/
def stripCI : List Char → List Char → Option (List Char × List Char)
  | [], s => some ([], s)
  | _ :: _, [] => none
  | l :: ls, c :: cs =>
    if asciiLower c = l then (stripCI ls cs).map (fun p => (c :: p.1, p.2))
    else none

/-- The class `[:\s]` of the version regex. -/
def isSepC (c : Char) : Bool := c = ':' || jsWS c

/-- Match of `/version[:\s]+(\d+\.\d+\.\d+)/i` at the head of `s`,
returning the capture. -/
def matchVersionKwAt (s : List Char) : Option (List Char) :=
  match stripCI "version".data s with
  | none => none
  | some (_, t) =>
    let w := t.takeWhile isSepC
    if w.isEmpty then none
    else
      match matchTriple (t.drop w.length) with
      | some (cap, _) => some cap
      | none => none

/-- First match of the keyword version pattern anywhere in the text. -/
def versionKwScan : Nat → List Char → Option (List Char)
  | 0, _ => none
  | _ + 1, [] => none
  | n + 1, c :: cs =>
    match matchVersionKwAt (c :: cs) with
    | some cap => some cap
    | none => versionKwScan n cs

/-- Match of `/v(\d+\.\d+\.\d+)/` (case-sensitive, no boundary) at head. -/
def matchVTripleAt (s : List Char) : Option (List Char) :=
  match s with
  | 'v' :: t =>
    match matchTriple t with
    | some (cap, _) => some cap
    | none => none
  | _ => none

/-- First match of the bare `vX.Y.Z` pattern anywhere in the text. -/
def vTripleScan : Nat → List Char → Option (List Char)
  | 0, _ => none
  | _ + 1, [] => none
  | n + 1, c :: cs =>
    match matchVTripleAt (c :: cs) with
    | some cap => some cap
    | none => vTripleScan n cs

/-- `content.match(/version[:\s]+(\d+\.\d+\.\d+)/i) || content.match(/v(\d+\.\d+\.\d+)/)`. -/
def extractVersionL (content : List Char) : Option (List Char) :=
  match versionKwScan content.length content with
  | some cap => some cap
  | none => vTripleScan content.length content

/-- Match of `/##?\s+table of contents/i` at the head of `s`.  The optional
second `#` is forced when present: if the second character is `#`, not
taking it would require `\s+` to match `#`. -/
def matchTocAt (s : List Char) : Bool :=
  match s with
  | [] => false
  | c :: t =>
    if c = '#' then
      let t' := if t.head? = some '#' then t.tail else t
      let w := t'.takeWhile jsWS
      if w.isEmpty then false
      else
        match stripCI "table of contents".data (t'.drop w.length) with
        | some _ => true
        | none => false
    else false

/-- `/##?\s+Table of Contents/i.test(content)` (a substring test: the
pattern is unanchored). -/
def tocScan : Nat → List Char → Bool
  | 0, _ => false
  | _ + 1, [] => false
  | n + 1, c :: cs => matchTocAt (c :: cs) || tocScan n cs

/-- The metadata record built by `extractMetadata`. -/
structure Metadata where
  badges : List Badge
  version : Option (List Char)
  links : List MdLink
  hasTableOfContents : Bool
deriving DecidableEq

/-- `extractMetadata` on a character list. -/
def extractMetadataL (content : List Char) : Metadata :=
  { badges := badgeScan content.length content
    version := extractVersionL content
    links := linkScan content.length content
    hasTableOfContents := tocScan content.length content }

/-- `extractMetadata(content)`. -/
def extractMetadata (content : String) : Metadata := extractMetadataL content.data

/-- The pure part of `analyzeExistingReadme` (the `structure` field, unused
by the claims, is omitted).  `existsFlag` embeds the `exists` flag. -/
structure ReadmeAnalysis where
  existsFlag : Bool
  content : List Char
  sections : List MdSection
  metadata : Metadata
  customSections : List CustomSection
deriving DecidableEq

/-- Builds the analysis object for file content that exists on disk. -/
def analyzeContent (content : List Char) : ReadmeAnalysis :=
  { existsFlag := true
    content := content
    sections := extractSectionsL content
    metadata := extractMetadataL content
    customSections := identifyCustomSectionsL content }

/-- `ProjectInfo` as consumed by `detectOutdatedInfo`; `none` models an
absent (undefined) field. -/
structure ProjectInfo where
  version : Option (List Char) := none
  scripts : Option (List (List Char × List Char)) := none
  dependencies : Option (List (List Char × List Char)) := none

/-- An issue pushed by `detectOutdatedInfo`; fields that a given issue kind
does not set are `none`.  Numeric `expected` values are stored in decimal. -/
structure Issue where
  type : List Char
  severity : List Char
  current : Option (List Char) := none
  expected : Option (List Char) := none
  script : Option (List Char) := none
  message : List Char
deriving DecidableEq

/-- Property lookup in an object modelled as an association list. -/
def lookupA (k : List Char) (l : List (List Char × List Char)) : Option (List Char) :=
  (l.find? (fun p => p.1 = k)).map (·.2)

/-- `parseInt` on a digit run. -/
def digitsToNat (ds : List Char) : Nat :=
  ds.foldl (fun acc c => acc * 10 + (c.toNat - 48)) 0

/-- Match of `/(\d+)\s+dependencies/i` at the head of `s`, returning the
digit capture. -/
def matchDepMentionAt (s : List Char) : Option (List Char) :=
  let d := s.takeWhile isDigitC
  if d.isEmpty then none
  else
    let t := s.drop d.length
    let w := t.takeWhile jsWS
    if w.isEmpty then none
    else
      match stripCI "dependencies".data (t.drop w.length) with
      | some _ => some d
      | none => none

/-- First match of the dependency-count pattern anywhere in the text. -/
def depMentionScan : Nat → List Char → Option (List Char)
  | 0, _ => none
  | _ + 1, [] => none
  | n + 1, c :: cs =>
    match matchDepMentionAt (c :: cs) with
    | some cap => some cap
    | none => depMentionScan n cs

/-- The fixed script names checked by `detectOutdatedInfo`. -/
def importantScripts : List (List Char) :=
  ["test", "build", "start", "dev"].map String.data

/-- `detectOutdatedInfo(readmeAnalysis, projectInfo)`.  A `none` analysis
models the `null` returned for a missing file. -/
def detectOutdatedInfo (ra : Option ReadmeAnalysis) (pinfo : ProjectInfo) : List Issue :=
  match ra with
  | none => []
  | some a =>
    if !a.existsFlag then []
    else
      let versionIssues : List Issue :=
        match a.metadata.version, pinfo.version with
        | some mv, some pv =>
          if mv ≠ pv then
            [{ type := "version".data, severity := "medium".data,
               current := some mv, expected := some pv,
               message := "Version in README (".data ++ mv ++
                 ") doesn\x27t match package.json (".data ++ pv ++ ")".data }]
          else []
        | _, _ => []
      let readmeContent := a.content.map asciiLower
      let scriptIssues : List Issue :=
        match pinfo.scripts with
        | none => []
        | some scr =>
          importantScripts.filterMap fun sname =>
            match lookupA sname scr with
            | some cmd =>
              if !cmd.isEmpty && !containsSub readmeContent ("npm run ".data ++ sname) &&
                  !containsSub readmeContent sname then
                some { type := "missing-script".data, severity := "low".data,
                       script := some sname,
                       message := "Package.json has \"".data ++ sname ++
                         "\" script but it\x27s not mentioned in README".data }
              else none
            | none => none
      let depIssues : List Issue :=
        match pinfo.dependencies with
        | none => []
        | some deps =>
          let depCount := deps.length
          match depMentionScan readmeContent.length readmeContent with
          | some capture =>
            if digitsToNat capture ≠ depCount then
              [{ type := "dependency-count".data, severity := "low".data,
                 current := some capture, expected := some (Nat.repr depCount).data,
                 message := "README mentions ".data ++ capture ++
                   " dependencies but package.json has ".data ++ (Nat.repr depCount).data }]
            else []
          | none => []
      versionIssues ++ scriptIssues ++ depIssues

/-- The literal prefix of the npm-badge regex
`/!\[npm version\]\(https:\/\/img\.shields\.io\/npm\/v\/[^)]+\)/g`. -/
def npmBadgeLit : List Char := "![npm version](https://img.shields.io/npm/v/".data

/-- The replacement string of the badge rule. -/
def npmBadgeRepl (v : List Char) : List Char := npmBadgeLit ++ v ++ [')']

/-- Match of the badge rule at the head of `s`. -/
def matchBadgeRuleAt (s : List Char) : Option (List Char × List Char) :=
  if npmBadgeLit.isPrefixOf s then
    let t := s.drop npmBadgeLit.length
    let a := t.takeWhile (fun c => !(c = ')'))
    if a.isEmpty then none
    else
      match t.drop a.length with
      | ')' :: rest => some (npmBadgeLit ++ a ++ [')'], rest)
      | _ => none
  else none

/-- The replacement string `version ${newVersion}` of the keyword rule. -/
def versionKwRepl (v : List Char) : List Char := "version ".data ++ v

/-- Match of `/version[:\s]+\d+\.\d+\.\d+/gi` at the head of `s`. -/
def matchVersionRuleAt (s : List Char) : Option (List Char × List Char) :=
  match stripCI "version".data s with
  | none => none
  | some (m0, t) =>
    let w := t.takeWhile isSepC
    if w.isEmpty then none
    else
      match matchTriple (t.drop w.length) with
      | some (cap, rest) => some (m0 ++ w ++ cap, rest)
      | none => none

/-- The replacement string `v${newVersion}` of the bare-token rule. -/
def vTokenRepl (v : List Char) : List Char := 'v' :: v

/-- Match of `/\bv\d+\.\d+\.\d+\b/g` at the head of `s`, given the previous
character of the scanned text (`none` at the start of the string). -/
def matchVTokenAt (prev : Option Char) (s : List Char) : Option (List Char × List Char) :=
  match s with
  | 'v' :: t =>
    if (match prev with | some p => isWordC p | none => false) then none
    else
      match matchTriple t with
      | some (cap, rest) =>
        (match rest.head? with
         | some c => if isWordC c then none else some ('v' :: cap, rest)
         | none => some ('v' :: cap, rest))
      | none => none
  | _ => none

/-- Global replace for the badge rule. -/
def badgeRuleScan (v : List Char) : Nat → List Char → List Char
  | 0, s => s
  | _ + 1, [] => []
  | n + 1, c :: cs =>
    match matchBadgeRuleAt (c :: cs) with
    | some (_, rest) => npmBadgeRepl v ++ badgeRuleScan v n rest
    | none => c :: badgeRuleScan v n cs

/-- Global replace for the keyword version rule. -/
def versionRuleScan (v : List Char) : Nat → List Char → List Char
  | 0, s => s
  | _ + 1, [] => []
  | n + 1, c :: cs =>
    match matchVersionRuleAt (c :: cs) with
    | some (_, rest) => versionKwRepl v ++ versionRuleScan v n rest
    | none => c :: versionRuleScan v n cs

/-- Global replace for the bare-token rule; matches are located on the
input text, so the word-boundary context is the input's previous char. -/
def vTokenScan (v : List Char) : Nat → Option Char → List Char → List Char
  | 0, _, s => s
  | _ + 1, _, [] => []
  | n + 1, prev, c :: cs =>
    match matchVTokenAt prev (c :: cs) with
    | some (m, rest) => vTokenRepl v ++ vTokenScan v n m.getLast? rest
    | none => c :: vTokenScan v n (some c) cs

/-- The three `.replace` calls of `updateVersionInReadme`, in source order. -/
def replaceBadgeRule (v s : List Char) : List Char := badgeRuleScan v s.length s

def replaceVersionRule (v s : List Char) : List Char := versionRuleScan v s.length s

def replaceVTokenRule (v s : List Char) : List Char := vTokenScan v s.length none s

/-- `updateVersionInReadme` on character lists. -/
def updateVersionInReadmeL (content newVersion : List Char) : List Char :=
  replaceVTokenRule newVersion
    (replaceVersionRule newVersion (replaceBadgeRule newVersion content))

/-- `updateVersionInReadme(content, newVersion)`. -/
def updateVersionInReadme (content newVersion : String) : String :=
  ⟨updateVersionInReadmeL content.data newVersion.data⟩

example : updateVersionInReadmeL "Version: 1.2.3 and v0.1.2, xv9.9.9".data "4.5.6".data =
    "version 4.5.6 and v4.5.6, xv9.9.9".data := by decide
example : updateVersionInReadmeL "![npm version](https://img.shields.io/npm/v/1.0.0)".data
    "2.0.0".data = "![npm version](https://img.shields.io/npm/v/2.0.0)".data := by decide
example : extractVersionL "Version 1.2.0".data = some "1.2.0".data := by decide
example : tocScan 22 "x### Table of Contents".data = true := by decide
example : tocScan 12 "## Contents".data = false := by decide

/-- C9: parsing never fails on degenerate input; all parse functions are
total (they are plain Lean functions), and parsing the empty string yields
no sections, no badges, no version, no links, no table of contents, and no
custom sections. -/
theorem parse_empty_readme :
    extractSections "" = [] ∧
    extractMetadata "" = ⟨[], none, [], false⟩ ∧
    identifyCustomSections "" = [] := by
  decide

/-- C6: on a README containing "Version 1.2.0" and project version
"1.3.0" with no scripts and no dependencies, `detectOutdatedInfo` returns
exactly one issue: kind `version`, severity `medium`, current `1.2.0`,
expected `1.3.0`. -/
theorem detect_version_drift :
    detectOutdatedInfo (some (analyzeContent "Version 1.2.0".data))
        ⟨some "1.3.0".data, none, none⟩ =
      [⟨"version".data, "medium".data, some "1.2.0".data, some "1.3.0".data, none,
        "Version in README (1.2.0) doesn\x27t match package.json (1.3.0)".data⟩] := by
  decide

/-- C1: the selective-update scenario.  With update-list ["Installation"]
and custom-section preservation, the merged document takes the new
Installation body, keeps the old Features body, and preserves the Custom
Notes section verbatim. -/
theorem merge_selective_update :
    (∃ s ∈ extractSectionsL (mergeReadmeContentL
        "## Installation\nold install text\n## Features\nold features\n## Custom Notes\nkeep me".data
        "## Installation\nnew install text\n## Features\nnew features".data
        ⟨true, false, ["Installation".data]⟩),
      s.title = "Installation".data ∧ s.content = "new install text".data) ∧
    (∃ s ∈ extractSectionsL (mergeReadmeContentL
        "## Installation\nold install text\n## Features\nold features\n## Custom Notes\nkeep me".data
        "## Installation\nnew install text\n## Features\nnew features".data
        ⟨true, false, ["Installation".data]⟩),
      s.title = "Features".data ∧ s.content = "old features".data) ∧
    (∃ s ∈ extractSectionsL (mergeReadmeContentL
        "## Installation\nold install text\n## Features\nold features\n## Custom Notes\nkeep me".data
        "## Installation\nnew install text\n## Features\nnew features".data
        ⟨true, false, ["Installation".data]⟩),
      s.title = "Custom Notes".data ∧ s.content = "keep me".data) := by
  decide

/-- C3 counterexample: a level-3 existing section ("### Zqx") whose
normalized title does not occur in the new document IS appended as
preserved custom content by the merge — `mergeReadmeContent` checks
`isCustomSection` only, never the heading level. -/
theorem merge_appends_level3_custom :
    ∃ s ∈ extractSectionsL "### Zqx\nbody".data, 3 ≤ s.level ∧
      normalizeTitleL s.title ∉
        ((extractSectionsL "# A\nx".data).map fun t => normalizeTitleL t.title) ∧
      (⟨s.rawTitle, s.content, MergeSource.custom⟩ : MergedSec) ∈
        mergedSectionList "### Zqx\nbody".data "# A\nx".data ⟨true, false, []⟩ := by
  decide

/-- C3 amended: when the policy preserves custom sections, EVERY existing
section whose normalized title does not occur among the new document's
normalized titles and whose normalized title classifies as custom is
appended as preserved custom content — regardless of its heading level.
(The level ≤ 2 restriction lives only in `identifyCustomSections`.) -/
theorem merge_appends_unmatched_customs
    (existingContent newContent : List Char) (opts : MergeOptions)
    (hp : opts.preserveCustomSections = true)
    (s : MdSection) (hs : s ∈ extractSectionsL existingContent)
    (hnp : normalizeTitleL s.title ∉
      ((extractSectionsL newContent).map fun t => normalizeTitleL t.title))
    (hc : isCustomSection (normalizeTitleL s.title) = true) :
    (⟨s.rawTitle, s.content, MergeSource.custom⟩ : MergedSec) ∈
      mergedSectionList existingContent newContent opts := by
  unfold mergedSectionList
  rw [hp]
  refine List.mem_append_right _ ?_
  simp only [if_pos]
  unfold mergeCustoms
  refine List.mem_map.2 ⟨s, List.mem_filter.2 ⟨hs, ?_⟩, rfl⟩
  simp only [Bool.and_eq_true, Bool.not_eq_true', decide_eq_false_iff_not]
  exact ⟨hnp, hc⟩

/-- Witness for the amended C3 theorem at a concrete input. -/
theorem merge_appends_unmatched_customs_witness :
    (⟨"## Qqy".data, "zz".data, MergeSource.custom⟩ : MergedSec) ∈
      mergedSectionList "## Qqy\nzz".data "# A\nx".data ⟨true, false, []⟩ :=
  merge_appends_unmatched_customs _ _ _ rfl
    ⟨2, "Qqy".data, "zz".data, 0, 1, "## Qqy".data⟩ (by decide) (by decide) (by decide)

theorem splitNl_ne_nil : ∀ s : List Char, splitNl s ≠ []
  | [] => by simp [splitNl]
  | c :: cs => by
    unfold splitNl
    by_cases h : c = '\n'
    · simp [h]
    · simp only [if_neg h]
      cases hs : splitNl cs <;> simp

theorem joinNl_splitNl : ∀ s : List Char, joinNl (splitNl s) = s
  | [] => rfl
  | c :: cs => by
    have ih := joinNl_splitNl cs
    unfold splitNl
    obtain ⟨l, ls, hls⟩ := List.exists_cons_of_ne_nil (splitNl_ne_nil cs)
    rw [hls] at ih
    by_cases h : c = '\n'
    · rw [if_pos h, hls]
      show joinNl ([] :: l :: ls) = c :: cs
      rw [joinNl, List.nil_append, h, ih]
    · rw [if_neg h, hls]
      cases ls with
      | nil =>
        show joinNl [c :: l] = c :: cs
        rw [joinNl] at ih ⊢
        rw [ih]
      | cons l2 ls2 =>
        show joinNl ((c :: l) :: l2 :: ls2) = c :: cs
        rw [joinNl] at ih ⊢
        rw [List.cons_append, ih]

theorem takeWhile_eq_self_of_all {α : Type} {p : α → Bool} :
    ∀ l : List α, (∀ a ∈ l, p a = true) → l.takeWhile p = l
  | [], _ => rfl
  | a :: l, h => by
    rw [List.takeWhile_cons, if_pos (h a (List.mem_cons_self a l))]
    rw [takeWhile_eq_self_of_all l (fun x hx => h x (List.mem_cons_of_mem a hx))]

theorem takeWhile_ne_nil_head {α : Type} {p : α → Bool} {t : List α}
    (h : t.takeWhile p ≠ []) : ∃ c t', t = c :: t' ∧ p c = true := by
  cases t with
  | nil => exact absurd rfl h
  | cons c t' =>
    rw [List.takeWhile_cons] at h
    by_cases hc : p c = true
    · exact ⟨c, t', rfl, hc⟩
    · rw [if_neg hc] at h
      exact absurd rfl h

/-- A line parsed as a heading by `extractSections` also breaks the header
scan of `getHeaderContent` (its regex asks for strictly less). -/
theorem breakLine_of_parseHeading {l : List Char} {x : Nat × List Char}
    (h : parseHeading l = some x) : breakLine l = true := by
  simp only [parseHeading] at h
  simp only [breakLine]
  split at h
  · exact absurd h (by simp)
  · next hk =>
    push_neg at hk
    split at h
    · exact absurd h (by simp)
    · next hw =>
      obtain ⟨c, t', ht, hc⟩ :=
        takeWhile_ne_nil_head (p := jsWS) (fun hh => hw (by rw [hh]; rfl))
      rw [decide_eq_true (And.intro (Nat.one_le_iff_ne_zero.2 hk.1) hk.2),
        Bool.true_and, ht]
      exact hc

theorem extractGo_nil_of_no_heads :
    ∀ (L : List (List Char)) (i : Nat) (acc : List (List Char)),
      (∀ l ∈ L, parseHeading l = none) → extractGo L i none acc = []
  | [], _, _, _ => rfl
  | l :: ls, i, acc, h => by
    have h0 := h l (List.mem_cons_self l ls)
    simp only [extractGo, h0]
    exact extractGo_nil_of_no_heads ls (i + 1) acc
      (fun x hx => h x (List.mem_cons_of_mem l hx))

/-- C7 counterexample: on the heading-free text "hello" the section list is
empty, but the header blob is the trimmed input PLUS two newlines, not the
trimmed input itself. -/
theorem header_roundtrip_cex :
    (∀ l ∈ splitNl "hello".data, parseHeading l = none) ∧
    extractSectionsL "hello".data = [] ∧
    getHeaderContentL "hello".data ≠ jsTrim "hello".data := by
  decide

/-- C7 amended: for every text none of whose lines matches the header-break
pattern `/^#{1,6}\s+/` (in particular, a heading-free text whose lines also
avoid title-less hash prefixes such as "## "), parsing yields no sections
and the header blob equals the trimmed input followed by two newlines. -/
theorem parse_no_break_lines (t : List Char)
    (h : ∀ l ∈ splitNl t, breakLine l = false) :
    extractSectionsL t = [] ∧ getHeaderContentL t = jsTrim t ++ ['\n', '\n'] := by
  constructor
  · apply extractGo_nil_of_no_heads
    intro l hl
    cases hp : parseHeading l with
    | none => rfl
    | some x =>
      have := breakLine_of_parseHeading hp
      rw [h l hl] at this
      exact absurd this (by simp)
  · unfold getHeaderContentL
    rw [takeWhile_eq_self_of_all _ (fun l hl => by rw [h l hl]; rfl), joinNl_splitNl]

/-- Witness for the amended C7 theorem at a concrete input. -/
theorem parse_no_break_lines_witness :
    (∀ l ∈ splitNl " hello\nworld ".data, breakLine l = false) ∧
    (extractSectionsL " hello\nworld ".data = [] ∧
      getHeaderContentL " hello\nworld ".data = jsTrim " hello\nworld ".data ++ ['\n', '\n']) :=
  ⟨by decide, parse_no_break_lines " hello\nworld ".data (by decide)⟩

theorem mem_takeWhile_pred {α : Type} {p : α → Bool} :
    ∀ {l : List α} {a : α}, a ∈ l.takeWhile p → p a = true
  | [], a, h => absurd h (List.not_mem_nil a)
  | b :: l, a, h => by
    rw [List.takeWhile_cons] at h
    by_cases hb : p b = true
    · rw [if_pos hb] at h
      rcases List.mem_cons.1 h with rfl | h'
      · exact hb
      · exact mem_takeWhile_pred h'
    · rw [if_neg hb] at h
      exact absurd h (List.not_mem_nil a)

theorem takeWhile_append_stop {α : Type} {p : α → Bool} :
    ∀ (xs ys : List α), (∀ a ∈ xs, p a = true) →
      (∀ c, ys.head? = some c → p c = false) →
      (xs ++ ys).takeWhile p = xs
  | [], ys, _, hy => by
    cases ys with
    | nil => rfl
    | cons y ys' =>
      have h0 : p y = false := hy y rfl
      simp [List.takeWhile_cons, h0]
  | x :: xs, ys, hx, hy => by
    rw [List.cons_append, List.takeWhile_cons, if_pos (hx x (List.mem_cons_self x xs))]
    rw [takeWhile_append_stop xs ys (fun a ha => hx a (List.mem_cons_of_mem x ha)) hy]

theorem stripCI_sound : ∀ (lit s m r : List Char), stripCI lit s = some (m, r) →
    s = m ++ r ∧ m.map asciiLower = lit
  | [], s, m, r, h => by
    simp only [stripCI, Option.some.injEq, Prod.mk.injEq] at h
    obtain ⟨rfl, rfl⟩ := h
    exact ⟨rfl, rfl⟩
  | _ :: _, [], m, r, h => by simp [stripCI] at h
  | l :: ls, c :: cs, m, r, h => by
    simp only [stripCI] at h
    by_cases hc : asciiLower c = l
    · rw [if_pos hc] at h
      cases hs : stripCI ls cs with
      | none => rw [hs] at h; simp at h
      | some p =>
        rw [hs] at h
        simp only [Option.map_some', Option.some.injEq, Prod.mk.injEq] at h
        obtain ⟨hm, hr⟩ := h
        obtain ⟨h1, h2⟩ := stripCI_sound ls cs p.1 p.2 hs
        subst hm
        subst hr
        constructor
        · rw [List.cons_append, ← h1]
        · rw [List.map_cons, hc, h2]
    · rw [if_neg hc] at h
      simp at h

theorem stripCI_complete : ∀ (m r : List Char), stripCI (m.map asciiLower) (m ++ r) = some (m, r)
  | [], r => rfl
  | c :: m, r => by
    show stripCI (asciiLower c :: m.map asciiLower) (c :: (m ++ r)) = some (c :: m, r)
    unfold stripCI
    rw [if_pos rfl, stripCI_complete m r]
    rfl

theorem jsWS_eq_false_of_upper {c : Char} (h1 : 'A' ≤ c) (h2 : c ≤ 'Z') : jsWS c = false := by
  have k : ∀ d : Char, d < 'A' ∨ 'Z' < d → decide (c = d) = false := by
    intro d hd
    apply decide_eq_false
    intro e
    subst e
    rcases hd with hd | hd
    · exact absurd h1 (not_le.2 hd)
    · exact absurd h2 (not_le.2 hd)
  unfold jsWS
  rw [k ' ' (Or.inl (by decide)), k '\t' (Or.inl (by decide)), k '\n' (Or.inl (by decide)),
    k '\r' (Or.inl (by decide)), k '\x0b' (Or.inl (by decide)), k '\x0c' (Or.inl (by decide)),
    k ' ' (Or.inr (by decide)), k ' ' (Or.inr (by decide)),
    k ' ' (Or.inr (by decide)), k ' ' (Or.inr (by decide)),
    k ' ' (Or.inr (by decide)), k ' ' (Or.inr (by decide)),
    k '　' (Or.inr (by decide)), k '﻿' (Or.inr (by decide)),
    decide_eq_false (fun hh : ' ' ≤ c => absurd (le_trans hh h2) (by decide))]
  simp

theorem not_ws_of_lower_t {c : Char} (h : asciiLower c = 't') : jsWS c = false := by
  unfold asciiLower at h
  split at h
  · next hc => exact jsWS_eq_false_of_upper hc.1 hc.2
  · subst h
    decide

theorem tocScan_iff : ∀ (n : Nat) (s : List Char), s.length ≤ n →
    (tocScan n s = true ↔ ∃ a b, s = a ++ b ∧ matchTocAt b = true)
  | 0, s, h => by
    rw [Nat.le_zero] at h
    rw [List.length_eq_zero] at h
    subst h
    constructor
    · intro hh
      exact absurd hh (by decide)
    · rintro ⟨a, b, hab, hm⟩
      obtain ⟨rfl, rfl⟩ := List.append_eq_nil.1 hab.symm
      exact absurd hm (by decide)
  | n + 1, [], _ => by
    constructor
    · intro hh
      rw [show tocScan (n + 1) ([] : List Char) = false from rfl] at hh
      cases hh
    · rintro ⟨a, b, hab, hm⟩
      obtain ⟨rfl, rfl⟩ := List.append_eq_nil.1 hab.symm
      exact absurd hm (by decide)
  | n + 1, c :: cs, h => by
    have hn : cs.length ≤ n := Nat.le_of_succ_le_succ h
    show (matchTocAt (c :: cs) || tocScan n cs) = true ↔ _
    rw [Bool.or_eq_true]
    constructor
    · rintro (hm | hs)
      · exact ⟨[], c :: cs, rfl, hm⟩
      · obtain ⟨a, b, hab, hm⟩ := (tocScan_iff n cs hn).1 hs
        exact ⟨c :: a, b, by rw [hab, List.cons_append], hm⟩
    · rintro ⟨a, b, hab, hm⟩
      cases a with
      | nil =>
        rw [List.nil_append] at hab
        exact Or.inl (hab ▸ hm)
      | cons a0 a' =>
        rw [List.cons_append] at hab
        obtain ⟨-, h2⟩ := List.cons.injEq .. ▸ hab
        exact Or.inr ((tocScan_iff n cs hn).2 ⟨a', b, h2, hm⟩)

/-- Any head-match of the table-of-contents pattern decomposes as optional
extra hash, some whitespace, then the case-insensitive literal. -/
theorem matchTocAt_decomp {b : List Char} (h : matchTocAt b = true) :
    ∃ pre ws lit tl, b = pre ++ '#' :: (ws ++ (lit ++ tl)) ∧ ws ≠ [] ∧
      (∀ c ∈ ws, jsWS c = true) ∧ lit.map asciiLower = "table of contents".data := by
  cases b with
  | nil => exact absurd h (by decide)
  | cons c t =>
    simp only [matchTocAt] at h
    by_cases hc : c = '#'
    · rw [if_pos hc] at h
      subst hc
      by_cases hh : t.head? = some '#'
      · rw [if_pos hh] at h
        obtain ⟨t2, rfl⟩ : ∃ t2, t = '#' :: t2 := by
          cases t with
          | nil => exact absurd hh (by decide)
          | cons x xs => exact ⟨xs, by rw [(Option.some.injEq .. ▸ hh : x = '#')]⟩
        simp only [List.tail_cons] at h
        split at h
        · exact absurd h (by decide)
        · next hw =>
          obtain ⟨u, hu⟩ := (List.takeWhile_prefix (p := jsWS) (l := t2))
          have hdrop : t2.drop (t2.takeWhile jsWS).length = u := by
            have hd := List.drop_left (t2.takeWhile jsWS) u
            rwa [hu] at hd
          rw [hdrop] at h
          cases hs : stripCI "table of contents".data u with
          | none => rw [hs] at h; exact absurd h (by decide)
          | some p =>
            obtain ⟨h1, h2⟩ := stripCI_sound _ u p.1 p.2 hs
            refine ⟨['#'], t2.takeWhile jsWS, p.1, p.2, ?_, ?_, ?_, h2⟩
            · rw [← h1, hu]
              rfl
            · intro e
              rw [e] at hw
              exact absurd rfl hw
            · exact fun x hx => mem_takeWhile_pred hx
      · rw [if_neg hh] at h
        split at h
        · exact absurd h (by decide)
        · next hw =>
          obtain ⟨u, hu⟩ := (List.takeWhile_prefix (p := jsWS) (l := t))
          have hdrop : t.drop (t.takeWhile jsWS).length = u := by
            have hd := List.drop_left (t.takeWhile jsWS) u
            rwa [hu] at hd
          rw [hdrop] at h
          cases hs : stripCI "table of contents".data u with
          | none => rw [hs] at h; exact absurd h (by decide)
          | some p =>
            obtain ⟨h1, h2⟩ := stripCI_sound _ u p.1 p.2 hs
            refine ⟨[], t.takeWhile jsWS, p.1, p.2, ?_, ?_, ?_, h2⟩
            · rw [List.nil_append, ← h1, hu]
            · intro e
              rw [e] at hw
              exact absurd rfl hw
            · exact fun x hx => mem_takeWhile_pred hx
    · rw [if_neg hc] at h
      exact absurd h (by decide)

/-- Conversely, a hash followed by whitespace and the case-insensitive
literal is a head-match. -/
theorem matchTocAt_construct {ws lit tl : List Char} (hws : ws ≠ [])
    (hall : ∀ c ∈ ws, jsWS c = true)
    (hlit : lit.map asciiLower = "table of contents".data) :
    matchTocAt ('#' :: (ws ++ (lit ++ tl))) = true := by
  obtain ⟨w0, ws', rfl⟩ := List.exists_cons_of_ne_nil hws
  obtain ⟨l0, lit', rfl⟩ : ∃ l0 lit', lit = l0 :: lit' := by
    cases lit with
    | nil => exact absurd hlit (by decide)
    | cons x xs => exact ⟨x, xs, rfl⟩
  have hw0 : jsWS w0 = true := hall w0 (List.mem_cons_self _ _)
  have hw0ne : w0 ≠ '#' := by
    intro e
    rw [e] at hw0
    exact absurd hw0 (by decide)
  have hl0 : asciiLower l0 = 't' := by
    have h5 := List.map_cons asciiLower l0 lit' ▸ hlit
    exact (List.cons.injEq .. ▸ h5).1
  have hl0ws : jsWS l0 = false := not_ws_of_lower_t hl0
  simp only [matchTocAt, eq_self_iff_true, if_true]
  have hhead : ((w0 :: ws') ++ (l0 :: lit' ++ tl)).head? ≠ some '#' := by
    rw [List.cons_append]
    intro e
    exact hw0ne (Option.some.injEq .. ▸ e)
  rw [if_neg hhead]
  have htw : ((w0 :: ws') ++ (l0 :: lit' ++ tl)).takeWhile jsWS = w0 :: ws' := by
    refine takeWhile_append_stop _ _ hall ?_
    intro c hcc
    rw [List.cons_append] at hcc
    simp only [List.head?_cons, Option.some.injEq] at hcc
    rw [← hcc]
    exact hl0ws
  rw [htw]
  have hne : (w0 :: ws').isEmpty = false := rfl
  rw [hne]
  simp only [Bool.false_eq_true, if_false]
  rw [List.drop_left]
  have hsc : stripCI "table of contents".data (l0 :: lit' ++ tl) = some (l0 :: lit', tl) := by
    have h0 := stripCI_complete (l0 :: lit') tl
    rw [hlit] at h0
    exact h0
  rw [hsc]

/-- C8 counterexample: "## Contents" is a level-2 heading whose normalized
title is exactly "contents", yet `extractMetadata` does not set the
table-of-contents flag (its regex only knows the literal "table of
contents"). -/
theorem toc_flag_cex :
    (∃ s ∈ extractSectionsL "## Contents".data, s.level ≤ 2 ∧
      (normalizeTitleL s.title = "table of contents".data ∨
        normalizeTitleL s.title = "contents".data)) ∧
    (extractMetadataL "## Contents".data).hasTableOfContents = false := by
  decide

/-- C8 amended: the `hasTableOfContents` flag is true iff the text
contains, at ANY position (not necessarily a heading line), one `#`
followed by at least one whitespace character and then the seventeen
characters "table of contents" case-insensitively.  (A `##` occurrence is
witnessed by the same decomposition at its second hash.)  In particular
"contents" alone never sets the flag, a leading emoji before the literal
prevents the match, and the pattern also fires inside `###` headings or
mid-line. -/
theorem toc_flag_iff (t : List Char) :
    (extractMetadataL t).hasTableOfContents = true ↔
      ∃ pre ws lit tl, t = pre ++ '#' :: (ws ++ (lit ++ tl)) ∧ ws ≠ [] ∧
        (∀ c ∈ ws, jsWS c = true) ∧ lit.map asciiLower = "table of contents".data := by
  show tocScan t.length t = true ↔ _
  rw [tocScan_iff t.length t (le_refl _)]
  constructor
  · rintro ⟨a, b, rfl, hm⟩
    obtain ⟨pre, ws, lit, tl, hb, hws, hall, hlit⟩ := matchTocAt_decomp hm
    exact ⟨a ++ pre, ws, lit, tl, by rw [hb, List.append_assoc], hws, hall, hlit⟩
  · rintro ⟨pre, ws, lit, tl, rfl, hws, hall, hlit⟩
    exact ⟨pre, _, rfl, matchTocAt_construct hws hall hlit⟩

/-- Exactly one of three alternatives holds. -/
def ExactlyOne (a b c : Prop) : Prop :=
  (a ∧ ¬ b ∧ ¬ c) ∨ (¬ a ∧ b ∧ ¬ c) ∨ (¬ a ∧ ¬ b ∧ c)

theorem createDiff_added (o n : List Char) :
    (createDiffSummaryL o n).added =
      ((extractSectionsL n).filter fun s =>
        !(decide (normalizeTitleL s.title ∈
          (extractSectionsL o).map fun s => normalizeTitleL s.title))).map (·.title) := rfl

theorem createDiff_removed (o n : List Char) :
    (createDiffSummaryL o n).removed =
      ((extractSectionsL o).filter fun s =>
        !(decide (normalizeTitleL s.title ∈
          (extractSectionsL n).map fun s => normalizeTitleL s.title))).map (·.title) := rfl

theorem createDiff_modified (o n : List Char) :
    (createDiffSummaryL o n).modified =
      ((extractSectionsL n).filter fun s =>
        match (extractSectionsL o).find?
            (fun e => normalizeTitleL e.title = normalizeTitleL s.title) with
        | some e => !(decide (jsTrim e.content = jsTrim s.content))
        | none => false).map (·.title) := rfl

theorem createDiff_unchanged (o n : List Char) :
    (createDiffSummaryL o n).unchanged =
      ((extractSectionsL n).filter fun s =>
        match (extractSectionsL o).find?
            (fun e => normalizeTitleL e.title = normalizeTitleL s.title) with
        | some e => decide (jsTrim e.content = jsTrim s.content)
        | none => false).map (·.title) := rfl

theorem mem_filterMapNorm_iff {l : List MdSection} {p : MdSection → Bool} {x : List Char} :
    x ∈ ((l.filter p).map (·.title)).map normalizeTitleL ↔
      ∃ e, e ∈ l ∧ p e = true ∧ normalizeTitleL e.title = x := by
  rw [List.map_map, List.mem_map]
  constructor
  · rintro ⟨e, he, hx⟩
    obtain ⟨he1, he2⟩ := List.mem_filter.1 he
    exact ⟨e, he1, he2, hx⟩
  · rintro ⟨e, he1, he2, hx⟩
    exact ⟨e, List.mem_filter.2 ⟨he1, he2⟩, hx⟩

theorem mem_addedN_iff {o n x : List Char} :
    x ∈ (createDiffSummaryL o n).added.map normalizeTitleL ↔
      ∃ e, e ∈ extractSectionsL n ∧
        (!(decide (normalizeTitleL e.title ∈
          (extractSectionsL o).map fun s => normalizeTitleL s.title))) = true ∧
        normalizeTitleL e.title = x := by
  rw [createDiff_added]
  exact mem_filterMapNorm_iff

theorem mem_removedN_iff {o n x : List Char} :
    x ∈ (createDiffSummaryL o n).removed.map normalizeTitleL ↔
      ∃ e, e ∈ extractSectionsL o ∧
        (!(decide (normalizeTitleL e.title ∈
          (extractSectionsL n).map fun s => normalizeTitleL s.title))) = true ∧
        normalizeTitleL e.title = x := by
  rw [createDiff_removed]
  exact mem_filterMapNorm_iff

theorem mem_modifiedN_iff {o n x : List Char} :
    x ∈ (createDiffSummaryL o n).modified.map normalizeTitleL ↔
      ∃ e, e ∈ extractSectionsL n ∧
        (match (extractSectionsL o).find?
            (fun e' => normalizeTitleL e'.title = normalizeTitleL e.title) with
         | some e' => !(decide (jsTrim e'.content = jsTrim e.content))
         | none => false) = true ∧
        normalizeTitleL e.title = x := by
  rw [createDiff_modified]
  exact mem_filterMapNorm_iff

theorem mem_unchangedN_iff {o n x : List Char} :
    x ∈ (createDiffSummaryL o n).unchanged.map normalizeTitleL ↔
      ∃ e, e ∈ extractSectionsL n ∧
        (match (extractSectionsL o).find?
            (fun e' => normalizeTitleL e'.title = normalizeTitleL e.title) with
         | some e' => decide (jsTrim e'.content = jsTrim e.content)
         | none => false) = true ∧
        normalizeTitleL e.title = x := by
  rw [createDiff_unchanged]
  exact mem_filterMapNorm_iff

/-- C5 counterexample: the old document's section title "Install!"
normalizes like the new document's "Install", so the pair lands in
`unchanged` — but under the new document's spelling.  The old title
"Install!" itself appears in none of removed/modified/unchanged. -/
theorem diff_completeness_cex :
    ("Install!".data ∈ (extractSectionsL "# Install!\nx".data).map (·.title)) ∧
    "Install!".data ∉ (createDiffSummaryL "# Install!\nx".data "# Install\nx".data).removed ∧
    "Install!".data ∉ (createDiffSummaryL "# Install!\nx".data "# Install\nx".data).modified ∧
    "Install!".data ∉ (createDiffSummaryL "# Install!\nx".data "# Install\nx".data).unchanged := by
  decide

/-- C5 amended: comparing titles through normalization, and provided the
new document's normalized section titles are pairwise distinct, every old
section's normalized title lies in exactly one of removed/modified/unchanged
and every new section's normalized title in exactly one of
added/modified/unchanged (modified and unchanged list the new document's
spellings, removed the old document's, added the new document's). -/
theorem diff_buckets_partition (oldC newC : List Char)
    (hnd : ((extractSectionsL newC).map fun s => normalizeTitleL s.title).Nodup) :
    (∀ s ∈ extractSectionsL oldC, ExactlyOne
        (normalizeTitleL s.title ∈ (createDiffSummaryL oldC newC).removed.map normalizeTitleL)
        (normalizeTitleL s.title ∈ (createDiffSummaryL oldC newC).modified.map normalizeTitleL)
        (normalizeTitleL s.title ∈ (createDiffSummaryL oldC newC).unchanged.map normalizeTitleL)) ∧
    (∀ s ∈ extractSectionsL newC, ExactlyOne
        (normalizeTitleL s.title ∈ (createDiffSummaryL oldC newC).added.map normalizeTitleL)
        (normalizeTitleL s.title ∈ (createDiffSummaryL oldC newC).modified.map normalizeTitleL)
        (normalizeTitleL s.title ∈ (createDiffSummaryL oldC newC).unchanged.map normalizeTitleL)) := by
  constructor
  · intro s hs
    by_cases hmem : normalizeTitleL s.title ∈
        (extractSectionsL newC).map fun t => normalizeTitleL t.title
    · obtain ⟨t', ht', htn⟩ := List.mem_map.1 hmem
      have hfs : ((extractSectionsL oldC).find?
          (fun e => normalizeTitleL e.title = normalizeTitleL t'.title)).isSome := by
        apply List.find?_isSome.2
        exact ⟨s, hs, decide_eq_true htn.symm⟩
      obtain ⟨e0, he0⟩ := Option.isSome_iff_exists.1 hfs
      have hnotrem : normalizeTitleL s.title ∉
          (createDiffSummaryL oldC newC).removed.map normalizeTitleL := by
        rw [mem_removedN_iff]
        rintro ⟨e, he, hpe, hne⟩
        rw [Bool.not_eq_true', decide_eq_false_iff_not] at hpe
        exact hpe (by rw [hne]; exact hmem)
      by_cases hcmp : jsTrim e0.content = jsTrim t'.content
      · refine Or.inr (Or.inr ⟨hnotrem, ?_, ?_⟩)
        · rw [mem_modifiedN_iff]
          rintro ⟨e2, he2, hpe2, hne2⟩
          have he2t : e2 = t' :=
            List.inj_on_of_nodup_map hnd he2 ht' (by rw [hne2, htn])
          subst he2t
          rw [he0] at hpe2
          have hx : (!(decide (jsTrim e0.content = jsTrim e2.content))) = true := hpe2
          rw [Bool.not_eq_true', decide_eq_false_iff_not] at hx
          exact hx hcmp
        · rw [mem_unchangedN_iff]
          refine ⟨t', ht', ?_, htn⟩
          rw [he0]
          exact decide_eq_true hcmp
      · refine Or.inr (Or.inl ⟨hnotrem, ?_, ?_⟩)
        · rw [mem_modifiedN_iff]
          refine ⟨t', ht', ?_, htn⟩
          rw [he0]
          rw [Bool.not_eq_true', decide_eq_false_iff_not]
          exact hcmp
        · rw [mem_unchangedN_iff]
          rintro ⟨e2, he2, hpe2, hne2⟩
          have he2t : e2 = t' :=
            List.inj_on_of_nodup_map hnd he2 ht' (by rw [hne2, htn])
          subst he2t
          rw [he0] at hpe2
          have hx : decide (jsTrim e0.content = jsTrim e2.content) = true := hpe2
          exact hcmp (of_decide_eq_true hx)
    · refine Or.inl ⟨?_, ?_, ?_⟩
      · rw [mem_removedN_iff]
        refine ⟨s, hs, ?_, rfl⟩
        rw [Bool.not_eq_true', decide_eq_false_iff_not]
        exact hmem
      · rw [mem_modifiedN_iff]
        rintro ⟨e2, he2, hpe2, hne2⟩
        exact hmem (by rw [← hne2]; exact List.mem_map.2 ⟨e2, he2, rfl⟩)
      · rw [mem_unchangedN_iff]
        rintro ⟨e2, he2, hpe2, hne2⟩
        exact hmem (by rw [← hne2]; exact List.mem_map.2 ⟨e2, he2, rfl⟩)
  · intro s hs
    by_cases hmem : normalizeTitleL s.title ∈
        (extractSectionsL oldC).map fun t => normalizeTitleL t.title
    · have hfs : ((extractSectionsL oldC).find?
          (fun e => normalizeTitleL e.title = normalizeTitleL s.title)).isSome := by
        apply List.find?_isSome.2
        obtain ⟨e', he', hen⟩ := List.mem_map.1 hmem
        exact ⟨e', he', decide_eq_true hen⟩
      obtain ⟨e0, he0⟩ := Option.isSome_iff_exists.1 hfs
      have hnotadd : normalizeTitleL s.title ∉
          (createDiffSummaryL oldC newC).added.map normalizeTitleL := by
        rw [mem_addedN_iff]
        rintro ⟨e, he, hpe, hne⟩
        rw [Bool.not_eq_true', decide_eq_false_iff_not] at hpe
        exact hpe (by rw [hne]; exact hmem)
      by_cases hcmp : jsTrim e0.content = jsTrim s.content
      · refine Or.inr (Or.inr ⟨hnotadd, ?_, ?_⟩)
        · rw [mem_modifiedN_iff]
          rintro ⟨e2, he2, hpe2, hne2⟩
          have he2s : e2 = s := List.inj_on_of_nodup_map hnd he2 hs hne2
          subst he2s
          rw [he0] at hpe2
          have hx : (!(decide (jsTrim e0.content = jsTrim e2.content))) = true := hpe2
          rw [Bool.not_eq_true', decide_eq_false_iff_not] at hx
          exact hx hcmp
        · rw [mem_unchangedN_iff]
          refine ⟨s, hs, ?_, rfl⟩
          rw [he0]
          exact decide_eq_true hcmp
      · refine Or.inr (Or.inl ⟨hnotadd, ?_, ?_⟩)
        · rw [mem_modifiedN_iff]
          refine ⟨s, hs, ?_, rfl⟩
          rw [he0]
          rw [Bool.not_eq_true', decide_eq_false_iff_not]
          exact hcmp
        · rw [mem_unchangedN_iff]
          rintro ⟨e2, he2, hpe2, hne2⟩
          have he2s : e2 = s := List.inj_on_of_nodup_map hnd he2 hs hne2
          subst he2s
          rw [he0] at hpe2
          have hx : decide (jsTrim e0.content = jsTrim e2.content) = true := hpe2
          exact hcmp (of_decide_eq_true hx)
    · refine Or.inl ⟨?_, ?_, ?_⟩
      · rw [mem_addedN_iff]
        refine ⟨s, hs, ?_, rfl⟩
        rw [Bool.not_eq_true', decide_eq_false_iff_not]
        exact hmem
      · rw [mem_modifiedN_iff]
        rintro ⟨e2, he2, hpe2, hne2⟩
        cases hf : (extractSectionsL oldC).find?
            (fun e' => normalizeTitleL e'.title = normalizeTitleL e2.title) with
        | none =>
          rw [hf] at hpe2
          exact absurd (show (false : Bool) = true from hpe2) (by decide)
        | some e3 =>
          have h3m := List.mem_of_find?_eq_some hf
          have h3p := List.find?_some hf
          have h3t : normalizeTitleL e3.title = normalizeTitleL e2.title :=
            of_decide_eq_true h3p
          exact hmem (by rw [← hne2, ← h3t]; exact List.mem_map.2 ⟨e3, h3m, rfl⟩)
      · rw [mem_unchangedN_iff]
        rintro ⟨e2, he2, hpe2, hne2⟩
        cases hf : (extractSectionsL oldC).find?
            (fun e' => normalizeTitleL e'.title = normalizeTitleL e2.title) with
        | none =>
          rw [hf] at hpe2
          exact absurd (show (false : Bool) = true from hpe2) (by decide)
        | some e3 =>
          have h3m := List.mem_of_find?_eq_some hf
          have h3p := List.find?_some hf
          have h3t : normalizeTitleL e3.title = normalizeTitleL e2.title :=
            of_decide_eq_true h3p
          exact hmem (by rw [← hne2, ← h3t]; exact List.mem_map.2 ⟨e3, h3m, rfl⟩)

/-- Witness for the amended C5 theorem at a concrete input. -/
theorem diff_buckets_partition_witness :
    ((extractSectionsL "# B\nz\n# C\ny".data).map fun s => normalizeTitleL s.title).Nodup ∧
    ((∀ s ∈ extractSectionsL "# A\nx\n# B\ny".data, ExactlyOne
        (normalizeTitleL s.title ∈
          (createDiffSummaryL "# A\nx\n# B\ny".data "# B\nz\n# C\ny".data).removed.map normalizeTitleL)
        (normalizeTitleL s.title ∈
          (createDiffSummaryL "# A\nx\n# B\ny".data "# B\nz\n# C\ny".data).modified.map normalizeTitleL)
        (normalizeTitleL s.title ∈
          (createDiffSummaryL "# A\nx\n# B\ny".data "# B\nz\n# C\ny".data).unchanged.map normalizeTitleL)) ∧
      (∀ s ∈ extractSectionsL "# B\nz\n# C\ny".data, ExactlyOne
        (normalizeTitleL s.title ∈
          (createDiffSummaryL "# A\nx\n# B\ny".data "# B\nz\n# C\ny".data).added.map normalizeTitleL)
        (normalizeTitleL s.title ∈
          (createDiffSummaryL "# A\nx\n# B\ny".data "# B\nz\n# C\ny".data).modified.map normalizeTitleL)
        (normalizeTitleL s.title ∈
          (createDiffSummaryL "# A\nx\n# B\ny".data "# B\nz\n# C\ny".data).unchanged.map normalizeTitleL))) :=
  ⟨by decide, diff_buckets_partition "# A\nx\n# B\ny".data "# B\nz\n# C\ny".data (by decide)⟩

/-- The front half of `jsTrim`. -/
def trimFront (s : List Char) : List Char := s.dropWhile jsWS

/-- The back half of `jsTrim`. -/
def trimBack (s : List Char) : List Char := (s.reverse.dropWhile jsWS).reverse

theorem jsTrim_eq_trimBack_trimFront (s : List Char) : jsTrim s = trimBack (trimFront s) := rfl

theorem dropWhile_append_cases {α : Type} (p : α → Bool) :
    ∀ x y : List α, (x ++ y).dropWhile p =
      if (x.dropWhile p).isEmpty then y.dropWhile p else x.dropWhile p ++ y
  | [], y => by simp
  | a :: x, y => by
    rw [List.cons_append, List.dropWhile_cons, List.dropWhile_cons]
    by_cases h : p a = true
    · rw [if_pos h, if_pos h]
      exact dropWhile_append_cases p x y
    · rw [if_neg h, if_neg h]
      rfl

theorem trimBack_append {x y : List Char} (h : trimBack y ≠ []) :
    trimBack (x ++ y) = x ++ trimBack y := by
  unfold trimBack at h ⊢
  rw [List.reverse_append, dropWhile_append_cases]
  have h2 : (y.reverse.dropWhile jsWS).isEmpty = false := by
    cases he : y.reverse.dropWhile jsWS with
    | nil => exact absurd (by rw [he]; rfl) h
    | cons a l => rfl
  rw [h2]
  simp only [Bool.false_eq_true, if_false]
  rw [List.reverse_append, List.reverse_reverse]

theorem trimBack_cons (c : Char) (s : List Char) :
    trimBack (c :: s) =
      if trimBack s = [] then (if jsWS c then [] else [c]) else c :: trimBack s := by
  by_cases h : trimBack s = []
  · rw [if_pos h]
    unfold trimBack at h ⊢
    have h0 : s.reverse.dropWhile jsWS = [] := by
      cases he : s.reverse.dropWhile jsWS with
      | nil => rfl
      | cons a l =>
        rw [he] at h
        simp at h
    rw [List.reverse_cons, dropWhile_append_cases, h0]
    simp only [List.isEmpty_nil, if_true]
    rw [List.dropWhile_cons]
    by_cases hc : jsWS c = true
    · rw [if_pos hc, if_pos hc]
      rfl
    · rw [if_neg hc, if_neg hc]
      rfl
  · rw [if_neg h]
    have hx : trimBack (c :: s) = trimBack ([c] ++ s) := rfl
    rw [hx, trimBack_append h]
    rfl

theorem trimFront_of_head_not_ws {c : Char} {s : List Char} (h : jsWS c = false) :
    trimFront (c :: s) = c :: s := by
  unfold trimFront
  rw [List.dropWhile_cons, h]
  rfl

theorem splitNl_cons_nl (cs : List Char) : splitNl ('\n' :: cs) = [] :: splitNl cs := by
  simp only [splitNl, eq_self_iff_true, if_true]

theorem splitNl_cons_other {c : Char} (h : ¬ c = '\n') (cs : List Char)
    (h0 : List Char) (t0 : List (List Char)) (ht : splitNl cs = h0 :: t0) :
    splitNl (c :: cs) = (c :: h0) :: t0 := by
  simp only [splitNl, if_neg h, ht]

theorem splitNl_append : ∀ u v : List Char, splitNl (u ++ '\n' :: v) = splitNl u ++ splitNl v
  | [], v => by
    rw [List.nil_append, splitNl_cons_nl]
    rfl
  | c :: u', v => by
    rw [List.cons_append]
    by_cases h : c = '\n'
    · subst h
      rw [splitNl_cons_nl, splitNl_cons_nl, splitNl_append u' v]
      rfl
    · obtain ⟨h0, t0, ht⟩ := List.exists_cons_of_ne_nil (splitNl_ne_nil u')
      have ih := splitNl_append u' v
      rw [ht, List.cons_append] at ih
      rw [splitNl_cons_other h (u' ++ '\n' :: v) h0 (t0 ++ splitNl v) ih]
      rw [splitNl_cons_other h u' h0 t0 ht]
      rfl

theorem splitNl_no_newline {l : List Char} (h : '\n' ∉ l) : splitNl l = [l] := by
  induction l with
  | nil => rfl
  | cons c cs ih =>
    unfold splitNl
    have hc : ¬ c = '\n' := fun e => h (e ▸ List.mem_cons_self c cs)
    rw [if_neg hc, ih (fun e => h (List.mem_cons_of_mem c e))]

theorem splitNl_mem_no_newline : ∀ (s : List Char), ∀ l ∈ splitNl s, '\n' ∉ l
  | [], l, hl => by
    simp only [splitNl, List.mem_singleton] at hl
    subst hl
    exact List.not_mem_nil _
  | c :: cs, l, hl => by
    unfold splitNl at hl
    by_cases h : c = '\n'
    · rw [if_pos h] at hl
      rcases List.mem_cons.1 hl with rfl | hl'
      · exact List.not_mem_nil _
      · exact splitNl_mem_no_newline cs l hl'
    · rw [if_neg h] at hl
      obtain ⟨h0, t0, ht⟩ := List.exists_cons_of_ne_nil (splitNl_ne_nil cs)
      rw [ht] at hl
      rcases List.mem_cons.1 hl with rfl | hl'
      · intro hmem
        rcases List.mem_cons.1 hmem with rfl | hmem'
        · exact h rfl
        · exact splitNl_mem_no_newline cs h0 (ht ▸ List.mem_cons_self h0 t0) hmem'
      · exact splitNl_mem_no_newline cs l (ht ▸ List.mem_cons_of_mem h0 hl')

theorem extractGo_nil (i : Nat) (st : Option CurSec) (acc : List (List Char)) :
    extractGo [] i st acc =
      match st with
      | some c => [closeSec c acc (i - 1)]
      | none => [] := rfl

theorem extractGo_cons (l : List Char) (ls : List (List Char)) (i : Nat)
    (st : Option CurSec) (acc : List (List Char)) :
    extractGo (l :: ls) i st acc =
      match parseHeading l with
      | some kt =>
        (match st with
         | some c => [closeSec c acc (i - 1)]
         | none => []) ++ extractGo ls (i + 1) (some (kt.1, i, kt.2, l)) []
      | none =>
        match st with
        | some c => extractGo ls (i + 1) (some c) (acc ++ [l])
        | none => extractGo ls (i + 1) none acc := rfl

/-- Invariant of `extractSections`: a produced section's `rawTitle` parses
as a heading reproducing the section's level and title, and contains no
newline. -/
theorem extractGo_inv :
    ∀ (L : List (List Char)) (i : Nat) (st : Option CurSec) (acc : List (List Char)),
      (∀ c, st = some c → parseHeading c.2.2.2 = some (c.1, c.2.2.1) ∧ '\n' ∉ c.2.2.2) →
      (∀ l ∈ L, '\n' ∉ l) →
      ∀ sec ∈ extractGo L i st acc,
        parseHeading sec.rawTitle = some (sec.level, sec.title) ∧ '\n' ∉ sec.rawTitle
  | [], i, st, acc, hst, _, sec, hsec => by
    rw [extractGo_nil] at hsec
    cases st with
    | none => exact absurd hsec (List.not_mem_nil sec)
    | some c =>
      have : sec = closeSec c acc (i - 1) := List.mem_singleton.1 hsec
      subst this
      exact hst c rfl
  | l :: ls, i, st, acc, hst, hL, sec, hsec => by
    rw [extractGo_cons] at hsec
    cases hp : parseHeading l with
    | some kt =>
      rw [hp] at hsec
      rcases List.mem_append.1 hsec with hcl | hrec
      · cases st with
        | none => exact absurd hcl (List.not_mem_nil sec)
        | some c =>
          have : sec = closeSec c acc (i - 1) := List.mem_singleton.1 hcl
          subst this
          exact hst c rfl
      · refine extractGo_inv ls (i + 1) (some (kt.1, i, kt.2, l)) [] ?_
          (fun x hx => hL x (List.mem_cons_of_mem l hx)) sec hrec
        intro c hc
        cases hc
        exact ⟨hp, hL l (List.mem_cons_self l ls)⟩
    | none =>
      rw [hp] at hsec
      cases st with
      | some c =>
        exact extractGo_inv ls (i + 1) (some c) (acc ++ [l]) hst
          (fun x hx => hL x (List.mem_cons_of_mem l hx)) sec hsec
      | none =>
        exact extractGo_inv ls (i + 1) none acc hst
          (fun x hx => hL x (List.mem_cons_of_mem l hx)) sec hsec

/-- Every parsed section's raw heading line re-parses to its level and
title and contains no newline. -/
theorem extractSectionsL_inv {c : List Char} {sec : MdSection}
    (h : sec ∈ extractSectionsL c) :
    parseHeading sec.rawTitle = some (sec.level, sec.title) ∧ '\n' ∉ sec.rawTitle :=
  extractGo_inv (splitNl c) 0 none [] (fun _ h0 => absurd h0 (by simp))
    (fun l hl => splitNl_mem_no_newline c l hl) sec h

/-- An open section followed by non-heading lines `M` and then either end
of input or a heading line closes with exactly `M` as its accumulated
content. -/
theorem extractGo_middle :
    ∀ (M S : List (List Char)) (cur : CurSec) (i : Nat) (acc : List (List Char)),
      (∀ m ∈ M, parseHeading m = none) →
      (S = [] ∨ ∃ s0 S' y, S = s0 :: S' ∧ parseHeading s0 = some y) →
      ∃ endL rest, extractGo (M ++ S) i (some cur) acc =
        closeSec cur (acc ++ M) endL :: rest
  | [], S, cur, i, acc, _, hS => by
    rcases hS with rfl | ⟨s0, S', y, rfl, hs0⟩
    · exact ⟨i - 1, [], by rw [List.append_nil, List.append_nil, extractGo_nil]⟩
    · refine ⟨i - 1, extractGo S' (i + 1) (some (y.1, i, y.2, s0)) [], ?_⟩
      rw [List.append_nil, List.nil_append, extractGo_cons, hs0]
      rfl
  | m :: M', S, cur, i, acc, hM, hS => by
    obtain ⟨endL, rest, hrec⟩ := extractGo_middle M' S cur (i + 1) (acc ++ [m])
      (fun x hx => hM x (List.mem_cons_of_mem m hx)) hS
    refine ⟨endL, rest, ?_⟩
    rw [List.cons_append, extractGo_cons, hM m (List.mem_cons_self m M')]
    show extractGo (M' ++ S) (i + 1) (some cur) (acc ++ [m]) =
      closeSec cur (acc ++ m :: M') endL :: rest
    rw [hrec, List.append_assoc]
    rfl

/-- Membership through an arbitrary prefix of lines: whatever state the
scanner reaches `r` in, it closes it there and opens `r` fresh, so the
section produced from `r` and `M` is always present. -/
theorem extractGo_contains :
    ∀ (P : List (List Char)) (M S : List (List Char)) (r : List Char)
      (lv : Nat) (ttl : List Char) (i : Nat) (st : Option CurSec) (acc : List (List Char)),
      parseHeading r = some (lv, ttl) →
      (∀ m ∈ M, parseHeading m = none) →
      (S = [] ∨ ∃ s0 S' y, S = s0 :: S' ∧ parseHeading s0 = some y) →
      ∃ sec ∈ extractGo (P ++ r :: (M ++ S)) i st acc,
        sec.level = lv ∧ sec.title = ttl ∧ sec.content = jsTrim (joinNl M)
  | [], M, S, r, lv, ttl, i, st, acc, hr, hM, hS => by
    rw [List.nil_append, extractGo_cons, hr]
    obtain ⟨endL, rest, hrec⟩ := extractGo_middle M S (lv, i, ttl, r) (i + 1) [] hM hS
    refine ⟨closeSec (lv, i, ttl, r) ([] ++ M) endL, ?_, rfl, rfl, ?_⟩
    · show closeSec (lv, i, ttl, r) ([] ++ M) endL ∈
        (match st with
         | some c => [closeSec c acc (i - 1)]
         | none => []) ++ extractGo (M ++ S) (i + 1) (some (lv, i, ttl, r)) []
      rw [hrec]
      exact List.mem_append_right _ (List.mem_cons_self _ _)
    · rw [List.nil_append]
      rfl
  | p :: P', M, S, r, lv, ttl, i, st, acc, hr, hM, hS => by
    rw [List.cons_append, extractGo_cons]
    cases hp : parseHeading p with
    | some kt =>
      obtain ⟨sec, hm, hsec⟩ := extractGo_contains P' M S r lv ttl (i + 1)
        (some (kt.1, i, kt.2, p)) [] hr hM hS
      exact ⟨sec, List.mem_append_right _ hm, hsec⟩
    | none =>
      cases st with
      | some c =>
        obtain ⟨sec, hm, hsec⟩ := extractGo_contains P' M S r lv ttl (i + 1)
          (some c) (acc ++ [p]) hr hM hS
        exact ⟨sec, hm, hsec⟩
      | none =>
        obtain ⟨sec, hm, hsec⟩ := extractGo_contains P' M S r lv ttl (i + 1)
          none acc hr hM hS
        exact ⟨sec, hm, hsec⟩

theorem trimBack_append_nil {x y : List Char} (h : trimBack y = []) :
    trimBack (x ++ y) = trimBack x := by
  unfold trimBack at h ⊢
  have h0 : y.reverse.dropWhile jsWS = [] := by
    cases he : y.reverse.dropWhile jsWS with
    | nil => rfl
    | cons a l =>
      rw [he] at h
      simp at h
  rw [List.reverse_append, dropWhile_append_cases, h0]
  rfl

theorem mem_trimBack {a : Char} {s : List Char} (h : a ∈ trimBack s) : a ∈ s := by
  unfold trimBack at h
  rw [List.mem_reverse] at h
  have := (List.dropWhile_sublist (p := jsWS) (l := s.reverse)).mem h
  rwa [List.mem_reverse] at this

theorem trimBack_head_cons (c : Char) (s : List Char) (h : jsWS c = false) :
    trimBack (c :: s) = c :: trimBack s ∨ trimBack (c :: s) = [c] := by
  rw [trimBack_cons]
  by_cases h0 : trimBack s = []
  · rw [if_pos h0, if_neg (by rw [h]; exact fun hh => absurd hh (by simp))]
    exact Or.inr rfl
  · rw [if_neg h0]
    exact Or.inl rfl

theorem trimBack_ne_nil_of_head {c : Char} {s : List Char} (h : jsWS c = false) :
    trimBack (c :: s) ≠ [] := by
  rcases trimBack_head_cons c s h with he | he <;> rw [he] <;> simp

theorem dropWhile_head_not {α : Type} {p : α → Bool} :
    ∀ (l : List α) (c : α), (l.dropWhile p).head? = some c → p c = false
  | [], c, h => by simp at h
  | a :: l, c, h => by
    rw [List.dropWhile_cons] at h
    by_cases ha : p a = true
    · rw [if_pos ha] at h
      exact dropWhile_head_not l c h
    · rw [if_neg ha] at h
      simp only [List.head?_cons, Option.some.injEq] at h
      subst h
      exact Bool.not_eq_true _ ▸ Bool.of_not_eq_true ha

/-- A heading line starts with a hash. -/
theorem parseHeading_head {r : List Char} {x : Nat × List Char}
    (h : parseHeading r = some x) : ∃ r', r = '#' :: r' := by
  simp only [parseHeading] at h
  split at h
  · exact absurd h (by simp)
  · next hk =>
    push_neg at hk
    have hne : r.takeWhile (fun c => decide (c = '#')) ≠ [] := by
      intro he
      exact hk.1 (by rw [he]; rfl)
    obtain ⟨c, t', ht, hc⟩ := takeWhile_ne_nil_head hne
    exact ⟨t', by rw [ht, of_decide_eq_true hc]⟩

/-- Decomposition of a successful heading parse with nonempty title. -/
theorem parseHeading_elim {t : List Char} {k : Nat} {ttl : List Char}
    (h : parseHeading t = some (k, ttl)) (hne : ttl ≠ []) :
    ∃ hs w rest, t = hs ++ w ++ rest ∧ (∀ c ∈ hs, c = '#') ∧ hs.length = k ∧
      1 ≤ k ∧ k ≤ 6 ∧ w ≠ [] ∧ (∀ c ∈ w, jsWS c = true) ∧ rest ≠ [] ∧
      (∀ c, rest.head? = some c → jsWS c = false) ∧ rest.any lineTerm = false ∧
      ttl = jsTrim rest := by
  simp only [parseHeading] at h
  set hs := t.takeWhile (fun c => decide (c = '#')) with hhs
  set u := t.drop hs.length with hu0
  set w := u.takeWhile jsWS with hw0
  set v := u.drop w.length with hv0
  split at h
  · exact absurd h (by simp)
  · next hk =>
    push_neg at hk
    split at h
    · exact absurd h (by simp)
    · next hwne =>
      have hu2 : hs ++ u = t := by
        have htake : hs = t.take hs.length :=
          List.prefix_iff_eq_take.1 (hhs ▸ List.takeWhile_prefix _)
        rw [hu0]
        nth_rewrite 1 [htake]
        exact List.take_append_drop _ t
      have hv2 : w ++ v = u := by
        have htake : w = u.take w.length :=
          List.prefix_iff_eq_take.1 (hw0 ▸ List.takeWhile_prefix _)
        rw [hv0]
        nth_rewrite 1 [htake]
        exact List.take_append_drop _ u
      have hvd : v = u.dropWhile jsWS := by
        have h3 : w ++ u.dropWhile jsWS = u := by
          rw [hw0]
          exact List.takeWhile_append_dropWhile jsWS u
        exact List.append_cancel_left (hv2.trans h3.symm)
      split at h
      · split at h
        · exact absurd h (by simp)
        · next hlt =>
          have h2 : (hs.length, jsTrim v) = (k, ttl) := Option.some.inj h
          have hk2 : hs.length = k := congrArg Prod.fst h2
          have httl : jsTrim v = ttl := congrArg Prod.snd h2
          next hre =>
            refine ⟨hs, w, v, ?_, ?_, hk2, ?_, ?_, ?_, ?_, ?_, ?_, ?_, ?_⟩
            · rw [← hu2, ← hv2, List.append_assoc]
            · intro c hc
              rw [hhs] at hc
              have hd := mem_takeWhile_pred hc
              exact of_decide_eq_true hd
            · rw [← hk2]
              exact Nat.one_le_iff_ne_zero.2 hk.1
            · rw [← hk2]
              exact hk.2
            · intro he
              exact hwne (by rw [he]; rfl)
            · intro c hc
              rw [hw0] at hc
              exact mem_takeWhile_pred hc
            · intro he
              rw [he] at hre
              simp at hre
            · intro c hc
              rw [hvd] at hc
              exact dropWhile_head_not u c hc
            · exact Bool.eq_false_iff.2 hlt
            · exact httl.symm
      · next hre =>
        exfalso
        cases hgl : w.getLast? with
        | none =>
          rw [hgl] at h
          exact absurd h (by simp)
        | some c =>
          rw [hgl] at h
          have h4 : (if 2 ≤ w.length ∧ ¬ lineTerm c = true then
              some (hs.length, ([] : List Char)) else none) = some (k, ttl) := h
          split at h4
          · have h2 : (hs.length, ([] : List Char)) = (k, ttl) := Option.some.inj h4
            exact hne (congrArg Prod.snd h2).symm
          · exact absurd h4 (by simp)

/-- Reconstruction of a heading parse from its parts. -/
theorem parseHeading_intro {hs w rest : List Char}
    (hhs : ∀ c ∈ hs, c = '#') (hk1 : 1 ≤ hs.length) (hk6 : hs.length ≤ 6)
    (hw : w ≠ []) (hws : ∀ c ∈ w, jsWS c = true)
    (hrest : rest ≠ []) (hrh : ∀ c, rest.head? = some c → jsWS c = false)
    (hlt : rest.any lineTerm = false) :
    parseHeading (hs ++ w ++ rest) = some (hs.length, jsTrim rest) := by
  obtain ⟨w0, w', rfl⟩ := List.exists_cons_of_ne_nil hw
  have hw0 : jsWS w0 = true := hws w0 (List.mem_cons_self _ _)
  have h1 : (hs ++ (w0 :: w') ++ rest).takeWhile (fun c => decide (c = '#')) = hs := by
    rw [List.append_assoc]
    refine takeWhile_append_stop _ _ (fun c hc => decide_eq_true (hhs c hc)) ?_
    intro c hc
    rw [List.cons_append, List.head?_cons] at hc
    have : c = w0 := (Option.some.inj hc).symm
    subst this
    apply decide_eq_false
    intro he
    rw [he] at hw0
    exact absurd hw0 (by decide)
  have h2 : (hs ++ (w0 :: w') ++ rest).drop hs.length = (w0 :: w') ++ rest := by
    rw [List.append_assoc]
    exact List.drop_left hs _
  have h3 : ((w0 :: w') ++ rest).takeWhile jsWS = w0 :: w' := by
    refine takeWhile_append_stop _ _ hws ?_
    intro c hc
    cases hr : rest with
    | nil => rw [hr] at hc; simp at hc
    | cons r0 r' =>
      rw [hr, List.head?_cons] at hc
      have : c = r0 := (Option.some.inj hc).symm
      subst this
      exact hrh c (by rw [hr]; rfl)
  have h4 : ((w0 :: w') ++ rest).drop (w0 :: w').length = rest := List.drop_left _ _
  simp only [parseHeading, h1, h2, h3, h4]
  rw [if_neg (by push_neg; exact ⟨Nat.one_le_iff_ne_zero.1 hk1, hk6⟩)]
  rw [if_neg (by simp)]
  have h5 : rest.isEmpty = false := by
    cases rest with
    | nil => exact absurd rfl hrest
    | cons a l => rfl
  rw [h5]
  simp only [Bool.not_false, if_true, hlt]
  rfl

/-- Stripping trailing whitespace from a heading line with nonempty title
leaves a heading line. -/
theorem trimBack_parseHeading {t : List Char} {k : Nat} {ttl : List Char}
    (h : parseHeading t = some (k, ttl)) (hne : ttl ≠ []) :
    ∃ y, parseHeading (trimBack t) = some y := by
  obtain ⟨hs, w, rest, rfl, hhs, hk, hk1, hk6, hw, hws, hrest, hrh, hlt, httl⟩ :=
    parseHeading_elim h hne
  obtain ⟨r0, r', rfl⟩ := List.exists_cons_of_ne_nil hrest
  have hr0 : jsWS r0 = false := hrh r0 rfl
  have hrne : trimBack (r0 :: r') ≠ [] := trimBack_ne_nil_of_head hr0
  have ht : trimBack (hs ++ w ++ (r0 :: r')) = hs ++ w ++ trimBack (r0 :: r') :=
    trimBack_append hrne
  rw [ht]
  refine ⟨(hs.length, jsTrim (trimBack (r0 :: r'))),
    parseHeading_intro hhs (hk ▸ hk1) (hk ▸ hk6) hw hws hrne ?_ ?_⟩
  · intro c hc
    rcases trimBack_head_cons r0 r' hr0 with he | he <;> rw [he] at hc <;>
      rw [List.head?_cons] at hc
    · rw [← Option.some.inj hc]
      exact hr0
    · rw [← Option.some.inj hc]
      exact hr0
  · rw [List.any_eq_false] at hlt ⊢
    intro x hx
    exact hlt x (mem_trimBack hx)

/-- Core reparse step for the preserved-custom-section property: with the
scanner positioned on lines `P ++ [r] ++ ["", "Hello world"] ++ …`, where
the remainder is the back-trimmed serialization of the following blocks,
the scan yields a section with `r`'s title and body "Hello world". -/
theorem extract_lines_custom (P : List (List Char)) (r : List Char) (lv : Nat)
    (ttl : List Char) (hr : parseHeading r = some (lv, ttl)) (B B' : List Char)
    (hB' : B' = trimBack ('\n' :: B))
    (hB : B = [] ∨ ∃ t1 V, B = '\n' :: (t1 ++ '\n' :: V) ∧ '\n' ∉ t1 ∧
        (∃ y, parseHeading t1 = some y) ∧ (∃ y, parseHeading (trimBack t1) = some y)) :
    ∃ sec ∈ extractGo (P ++ r :: ([] :: splitNl ("Hello world".data ++ (B' ++ ['\n']))))
        0 none [],
      sec.level = lv ∧ sec.title = ttl ∧ sec.content = "Hello world".data := by
  by_cases hBe : B' = []
  · subst hBe
    have hE : splitNl ("Hello world".data ++ ([] ++ ['\n'])) = ["Hello world".data, []] := by
      decide
    rw [hE]
    obtain ⟨sec, hm, h1, h2, h3⟩ := extractGo_contains P [[], "Hello world".data, []] [] r
      lv ttl 0 none [] hr (by decide) (Or.inl rfl)
    rw [List.append_nil] at hm
    exact ⟨sec, hm, h1, h2, by rw [h3]; decide⟩
  · have h2 : trimBack B ≠ [] := by
      intro he
      rw [hB', trimBack_cons, if_pos he, if_pos (by decide)] at hBe
      exact hBe rfl
    have hB2 : B' = '\n' :: trimBack B := by
      rw [hB', trimBack_cons, if_neg h2]
    rcases hB with rfl | ⟨t1, V, rfl, ht1n, hy1, hy2⟩
    · exact (h2 rfl).elim
    · have h3 : trimBack ('\n' :: (t1 ++ '\n' :: V)) = '\n' :: trimBack (t1 ++ '\n' :: V) := by
        rw [trimBack_cons]
        by_cases h4 : trimBack (t1 ++ '\n' :: V) = []
        · rw [trimBack_cons, if_pos h4, if_pos (by decide)] at h2
          exact (h2 rfl).elim
        · rw [if_neg h4]
      by_cases hV : trimBack ('\n' :: V) = []
      · have h4 : trimBack (t1 ++ '\n' :: V) = trimBack t1 := trimBack_append_nil hV
        have hB3n : '\n' ∉ trimBack t1 := fun hm => ht1n (mem_trimBack hm)
        have h5 : "Hello world".data ++ (B' ++ ['\n']) =
            "Hello world".data ++ '\n' :: ('\n' :: (trimBack t1 ++ ['\n'])) := by
          rw [hB2, h3, h4]
          rfl
        have hE : splitNl ("Hello world".data ++ (B' ++ ['\n'])) =
            ["Hello world".data] ++ ([] :: splitNl (trimBack t1 ++ '\n' :: [])) := by
          rw [h5, splitNl_append "Hello world".data, splitNl_no_newline (by decide),
            splitNl_cons_nl]
        have hE2 : splitNl (trimBack t1 ++ '\n' :: []) = [trimBack t1, []] := by
          rw [splitNl_append, splitNl_no_newline hB3n]
          rfl
        rw [hE, hE2]
        obtain ⟨y2, hy2'⟩ := hy2
        obtain ⟨sec, hm, h1', h2', h3'⟩ := extractGo_contains P [[], "Hello world".data, []]
          [trimBack t1, []] r lv ttl 0 none [] hr (by decide)
          (Or.inr ⟨trimBack t1, [[]], y2, rfl, hy2'⟩)
        refine ⟨sec, ?_, h1', h2', by rw [h3']; decide⟩
        exact hm
      · have h6 : trimBack ('\n' :: V) = '\n' :: trimBack V := by
          rw [trimBack_cons]
          by_cases h7 : trimBack V = []
          · rw [trimBack_cons, if_pos h7, if_pos (by decide)] at hV
            exact (hV rfl).elim
          · rw [if_neg h7]
        have h4 : trimBack (t1 ++ '\n' :: V) = t1 ++ '\n' :: trimBack V :=
          (trimBack_append hV).trans (by rw [h6])
        have h5 : "Hello world".data ++ (B' ++ ['\n']) =
            "Hello world".data ++ '\n' :: ('\n' :: (t1 ++ '\n' :: (trimBack V ++ ['\n']))) := by
          rw [hB2, h3, h4]
          simp
        have hE : splitNl ("Hello world".data ++ (B' ++ ['\n'])) =
            ["Hello world".data] ++ ([] :: (t1 :: splitNl (trimBack V ++ ['\n']))) := by
          rw [h5, splitNl_append "Hello world".data, splitNl_no_newline (by decide),
            splitNl_cons_nl, splitNl_append t1, splitNl_no_newline ht1n]
          rfl
        rw [hE]
        obtain ⟨y1, hy1'⟩ := hy1
        obtain ⟨sec, hm, h1', h2', h3'⟩ := extractGo_contains P [[], "Hello world".data, []]
          (t1 :: splitNl (trimBack V ++ ['\n'])) r lv ttl 0 none [] hr (by decide)
          (Or.inr ⟨t1, splitNl (trimBack V ++ ['\n']), y1, rfl, hy1'⟩)
        refine ⟨sec, ?_, h1', h2', by rw [h3']; decide⟩
        exact hm

/-- The serialized merge output, trimmed and newline-terminated, re-parses
to a section list containing the preserved custom section. -/
theorem serialized_contains_section (C B r : List Char) (lv : Nat) (ttl : List Char)
    (hr : parseHeading r = some (lv, ttl)) (hrn : '\n' ∉ r)
    (hB : B = [] ∨ ∃ t1 V, B = '\n' :: (t1 ++ '\n' :: V) ∧ '\n' ∉ t1 ∧
        (∃ y, parseHeading t1 = some y) ∧ (∃ y, parseHeading (trimBack t1) = some y)) :
    ∃ sec ∈ extractSectionsL
        (jsTrim (C ++ '\n' :: (r ++ '\n' :: '\n' :: ("Hello world".data ++ '\n' :: B))) ++
          ['\n']),
      sec.level = lv ∧ sec.title = ttl ∧ sec.content = "Hello world".data := by
  have hYB : trimBack ("Hello world".data ++ '\n' :: B) =
      "Hello world".data ++ trimBack ('\n' :: B) := by
    by_cases hv : trimBack ('\n' :: B) = []
    · rw [trimBack_append_nil hv, hv, List.append_nil]
      decide
    · exact trimBack_append hv
  have hYne : trimBack ("Hello world".data ++ '\n' :: B) ≠ [] := by
    rw [hYB]
    exact fun he => absurd (List.append_eq_nil.1 he).1 (by decide)
  rw [jsTrim_eq_trimBack_trimFront]
  have hfront := dropWhile_append_cases jsWS C
    ('\n' :: (r ++ '\n' :: '\n' :: ("Hello world".data ++ '\n' :: B)))
  by_cases hCe : (C.dropWhile jsWS).isEmpty = true
  · obtain ⟨r', rfl⟩ := parseHeading_head hr
    have htf : trimFront (C ++ '\n' :: ('#' :: r' ++ '\n' :: '\n' ::
        ("Hello world".data ++ '\n' :: B))) =
        '#' :: r' ++ '\n' :: '\n' :: ("Hello world".data ++ '\n' :: B) := by
      show (C ++ '\n' :: ('#' :: r' ++ '\n' :: '\n' ::
        ("Hello world".data ++ '\n' :: B))).dropWhile jsWS = _
      rw [hfront, if_pos hCe, List.dropWhile_cons, if_pos (by decide), List.cons_append,
        List.dropWhile_cons, if_neg (by decide)]
    rw [htf]
    have hgrp : '#' :: r' ++ '\n' :: '\n' :: ("Hello world".data ++ '\n' :: B) =
        (('#' :: r') ++ ['\n', '\n']) ++ ("Hello world".data ++ '\n' :: B) := by
      simp
    rw [hgrp, trimBack_append hYne, hYB]
    have hform : ((('#' :: r') ++ ['\n', '\n']) ++
          ("Hello world".data ++ trimBack ('\n' :: B))) ++ ['\n'] =
        ('#' :: r') ++ '\n' :: ('\n' ::
          ("Hello world".data ++ (trimBack ('\n' :: B) ++ ['\n']))) := by
      simp
    rw [show extractSectionsL ((('#' :: r' ++ ['\n', '\n']) ++
          ("Hello world".data ++ trimBack ('\n' :: B))) ++ ['\n']) =
        extractGo (splitNl ((('#' :: r' ++ ['\n', '\n']) ++
          ("Hello world".data ++ trimBack ('\n' :: B))) ++ ['\n'])) 0 none [] from rfl]
    rw [hform, splitNl_append ('#' :: r'), splitNl_no_newline hrn, splitNl_cons_nl]
    have := extract_lines_custom [] ('#' :: r') lv ttl hr B (trimBack ('\n' :: B)) rfl hB
    rw [List.nil_append] at this
    exact this
  · have htf : trimFront (C ++ '\n' :: (r ++ '\n' :: '\n' ::
        ("Hello world".data ++ '\n' :: B))) =
        C.dropWhile jsWS ++ '\n' :: (r ++ '\n' :: '\n' ::
          ("Hello world".data ++ '\n' :: B)) := by
      show (C ++ '\n' :: (r ++ '\n' :: '\n' ::
        ("Hello world".data ++ '\n' :: B))).dropWhile jsWS = _
      rw [hfront, if_neg hCe]
    rw [htf]
    have hgrp : C.dropWhile jsWS ++ '\n' :: (r ++ '\n' :: '\n' ::
        ("Hello world".data ++ '\n' :: B)) =
        ((C.dropWhile jsWS ++ '\n' :: (r ++ ['\n', '\n']))) ++
          ("Hello world".data ++ '\n' :: B) := by
      simp
    rw [hgrp, trimBack_append hYne, hYB]
    have hform : (((C.dropWhile jsWS ++ '\n' :: (r ++ ['\n', '\n']))) ++
          ("Hello world".data ++ trimBack ('\n' :: B))) ++ ['\n'] =
        C.dropWhile jsWS ++ '\n' :: (r ++ '\n' :: ('\n' ::
          ("Hello world".data ++ (trimBack ('\n' :: B) ++ ['\n'])))) := by
      simp
    rw [show extractSectionsL ((((C.dropWhile jsWS ++ '\n' :: (r ++ ['\n', '\n']))) ++
          ("Hello world".data ++ trimBack ('\n' :: B))) ++ ['\n']) =
        extractGo (splitNl ((((C.dropWhile jsWS ++ '\n' :: (r ++ ['\n', '\n']))) ++
          ("Hello world".data ++ trimBack ('\n' :: B))) ++ ['\n'])) 0 none [] from rfl]
    rw [hform, splitNl_append (C.dropWhile jsWS), splitNl_append r,
      splitNl_no_newline hrn, splitNl_cons_nl]
    have := extract_lines_custom (splitNl (C.dropWhile jsWS)) r lv ttl hr B
      (trimBack ('\n' :: B)) rfl hB
    obtain ⟨sec, hm, hsec⟩ := this
    exact ⟨sec, hm, hsec⟩

/-- The per-section block appended by the serializer:
`'\n' + title + '\n\n' + content + '\n'`. -/
def mergeBlock (it : MergedSec) : List Char :=
  '\n' :: it.title ++ '\n' :: '\n' :: it.content ++ ['\n']

theorem serializeMerged_eq (header : List Char) (items : List MergedSec) :
    serializeMerged header items =
      jsTrim (header ++ (items.map mergeBlock).flatten) ++ ['\n'] := rfl

theorem mergeReadmeContentL_eq (e n : List Char) (opts : MergeOptions) :
    mergeReadmeContentL e n opts =
      serializeMerged
        (if opts.preserveHeader && !(getHeaderContentL e).isEmpty then getHeaderContentL e
         else getHeaderContentL n)
        (mergedSectionList e n opts) := rfl

theorem flatten_map_split (f : MergedSec → List Char) :
    ∀ (pre : List MergedSec) (post : List MergedSec) (x : MergedSec),
      ((pre ++ x :: post).map f).flatten = (pre.map f).flatten ++ (f x ++ (post.map f).flatten)
  | [], post, x => rfl
  | a :: pre, post, x => by
    rw [List.cons_append, List.map_cons, List.map_cons]
    show f a ++ ((pre ++ x :: post).map f).flatten = (f a ++ (pre.map f).flatten) ++ _
    rw [flatten_map_split f pre post x, List.append_assoc]

/-- Construction side of the custom-preservation loop. -/
theorem mem_mergeCustoms {processed : List (List Char)} {existing : List MdSection}
    {s : MdSection} (hs : s ∈ existing)
    (hnp : normalizeTitleL s.title ∉ processed)
    (hc : isCustomSection (normalizeTitleL s.title) = true) :
    (⟨s.rawTitle, s.content, MergeSource.custom⟩ : MergedSec) ∈
      mergeCustoms processed existing := by
  unfold mergeCustoms
  refine List.mem_map.2 ⟨s, List.mem_filter.2 ⟨hs, ?_⟩, rfl⟩
  simp only [Bool.and_eq_true, Bool.not_eq_true', decide_eq_false_iff_not]
  exact ⟨hnp, hc⟩

/-- Destruction side of the custom-preservation loop. -/
theorem mergeCustoms_elem {processed : List (List Char)} {existing : List MdSection}
    {it : MergedSec} (h : it ∈ mergeCustoms processed existing) :
    ∃ sec ∈ existing, it.title = sec.rawTitle ∧ it.content = sec.content ∧
      isCustomSection (normalizeTitleL sec.title) = true := by
  unfold mergeCustoms at h
  obtain ⟨sec, hf, him⟩ := List.mem_map.1 h
  obtain ⟨hm, hpred⟩ := List.mem_filter.1 hf
  simp only [Bool.and_eq_true, Bool.not_eq_true', decide_eq_false_iff_not] at hpred
  exact ⟨sec, hm, by rw [← him], by rw [← him], hpred.2⟩

/-- A custom section's normalized title is nonempty, hence its parsed title
is nonempty. -/
theorem customSection_title_ne_nil {sec : MdSection}
    (hc : isCustomSection (normalizeTitleL sec.title) = true) : sec.title ≠ [] := by
  intro he
  rw [he] at hc
  exact absurd hc (by decide)

/-- C2: for EVERY existing document containing a level-2 section titled
"My Custom Notes" with body "Hello world" and every new document with no
section of that normalized title, any merge that preserves custom sections
produces output that re-parses to a section titled "My Custom Notes" with
body "Hello world" verbatim. -/
theorem merge_preserves_custom_note (existingC newC : List Char) (opts : MergeOptions)
    (hp : opts.preserveCustomSections = true)
    (s : MdSection) (hs : s ∈ extractSectionsL existingC)
    (hlv : s.level = 2)
    (htitle : s.title = "My Custom Notes".data)
    (hbody : s.content = "Hello world".data)
    (hnew : ∀ t ∈ extractSectionsL newC, normalizeTitleL t.title ≠ "my custom notes".data) :
    ∃ sec ∈ extractSectionsL (mergeReadmeContentL existingC newC opts),
      sec.title = "My Custom Notes".data ∧ sec.content = "Hello world".data := by
  have hnorm : normalizeTitleL s.title = "my custom notes".data := by
    rw [htitle]
    decide
  have hnp : normalizeTitleL s.title ∉
      (extractSectionsL newC).map fun t => normalizeTitleL t.title := by
    rw [hnorm]
    intro hmem
    obtain ⟨t, ht, htt⟩ := List.mem_map.1 hmem
    exact hnew t ht htt
  have hc : isCustomSection (normalizeTitleL s.title) = true := by
    rw [hnorm]
    decide
  have hmem0 : (⟨s.rawTitle, s.content, MergeSource.custom⟩ : MergedSec) ∈
      mergeCustoms ((extractSectionsL newC).map fun t => normalizeTitleL t.title)
        (extractSectionsL existingC) := mem_mergeCustoms hs hnp hc
  obtain ⟨pre_c, post_c, hsplit⟩ := List.append_of_mem hmem0
  have hitems : mergedSectionList existingC newC opts =
      (mergeNewSections (extractSectionsL existingC) opts.sectionsToUpdate
          (extractSectionsL newC) ++ pre_c) ++
        (⟨s.rawTitle, s.content, MergeSource.custom⟩ : MergedSec) :: post_c := by
    unfold mergedSectionList
    rw [hp]
    simp only [if_true]
    rw [hsplit, List.append_assoc]
  obtain ⟨hparse, hrn⟩ := extractSectionsL_inv hs
  rw [hlv, htitle] at hparse
  have hB : (post_c.map mergeBlock).flatten = [] ∨
      ∃ t1 V, (post_c.map mergeBlock).flatten = '\n' :: (t1 ++ '\n' :: V) ∧ '\n' ∉ t1 ∧
        (∃ y, parseHeading t1 = some y) ∧ (∃ y, parseHeading (trimBack t1) = some y) := by
    cases post_c with
    | nil => exact Or.inl rfl
    | cons it1 rest =>
      have hit1 : it1 ∈ mergeCustoms ((extractSectionsL newC).map fun t => normalizeTitleL t.title)
          (extractSectionsL existingC) := by
        rw [hsplit]
        exact List.mem_append_right _ (List.mem_cons_of_mem _ (List.mem_cons_self _ _))
      obtain ⟨sec1, hsec1, hti, hco, hcu⟩ := mergeCustoms_elem hit1
      obtain ⟨hparse1, hrn1⟩ := extractSectionsL_inv hsec1
      have htne : sec1.title ≠ [] := customSection_title_ne_nil hcu
      refine Or.inr ⟨it1.title, ('\n' :: (it1.content ++ ['\n'])) ++ (rest.map mergeBlock).flatten,
        ?_, ?_, ⟨(sec1.level, sec1.title), by rw [hti]; exact hparse1⟩, ?_⟩
      · show (mergeBlock it1 ++ (rest.map mergeBlock).flatten) = _
        unfold mergeBlock
        simp
      · rw [hti]
        exact hrn1
      · obtain ⟨y, hy⟩ := trimBack_parseHeading hparse1 htne
        exact ⟨y, by rw [hti]; exact hy⟩
  have hout : mergeReadmeContentL existingC newC opts =
      jsTrim (((if opts.preserveHeader && !(getHeaderContentL existingC).isEmpty then
            getHeaderContentL existingC else getHeaderContentL newC) ++
          ((mergeNewSections (extractSectionsL existingC) opts.sectionsToUpdate
              (extractSectionsL newC) ++ pre_c).map mergeBlock).flatten) ++
        '\n' :: (s.rawTitle ++ '\n' :: '\n' ::
          ("Hello world".data ++ '\n' :: (post_c.map mergeBlock).flatten))) ++ ['\n'] := by
    rw [mergeReadmeContentL_eq, serializeMerged_eq, hitems, flatten_map_split]
    unfold mergeBlock
    rw [hbody]
    simp
  rw [hout]
  obtain ⟨sec, hm, h1, h2, h3⟩ := serialized_contains_section _ _ s.rawTitle 2
    "My Custom Notes".data hparse hrn hB
  exact ⟨sec, hm, h2, h3⟩

/-- Witness for the custom-note preservation theorem at a concrete input. -/
theorem merge_preserves_custom_note_witness :
    (⟨2, "My Custom Notes".data, "Hello world".data, 2, 3,
        "## My Custom Notes".data⟩ : MdSection) ∈
      extractSectionsL "# Intro\nhi\n## My Custom Notes\nHello world".data ∧
    (∀ t ∈ extractSectionsL "# Intro\nnew".data,
      normalizeTitleL t.title ≠ "my custom notes".data) ∧
    ∃ sec ∈ extractSectionsL (mergeReadmeContentL
        "# Intro\nhi\n## My Custom Notes\nHello world".data "# Intro\nnew".data
        ⟨true, false, []⟩),
      sec.title = "My Custom Notes".data ∧ sec.content = "Hello world".data :=
  ⟨by decide, by decide,
    merge_preserves_custom_note "# Intro\nhi\n## My Custom Notes\nHello world".data
      "# Intro\nnew".data ⟨true, false, []⟩ rfl
      ⟨2, "My Custom Notes".data, "Hello world".data, 2, 3, "## My Custom Notes".data⟩
      (by decide) rfl rfl rfl (by decide)⟩

theorem mergeNewSections_cons (es : List MdSection) (stu : List (List Char))
    (n : MdSection) (rest : List MdSection) :
    mergeNewSections es stu (n :: rest) =
      (match es.find? (fun s => normalizeTitleL s.title = normalizeTitleL n.title) with
       | some e =>
         if shouldPreserveSection (normalizeTitleL n.title) stu then
           ⟨e.rawTitle, e.content, MergeSource.existing⟩
         else ⟨n.rawTitle, n.content, MergeSource.fromNew⟩
       | none => ⟨n.rawTitle, n.content, MergeSource.fromNew⟩) ::
        mergeNewSections es stu rest := rfl

/-- With an empty update-list nothing is ever preserved: the first merge
loop copies the new document's sections unconditionally. -/
theorem mergeNewSections_empty_stu (es : List MdSection) :
    ∀ ns : List MdSection, mergeNewSections es [] ns =
      ns.map fun n => ⟨n.rawTitle, n.content, MergeSource.fromNew⟩
  | [] => rfl
  | n :: rest => by
    have hhead : (match es.find? (fun s => normalizeTitleL s.title = normalizeTitleL n.title) with
       | some e =>
         if shouldPreserveSection (normalizeTitleL n.title) [] then
           ⟨e.rawTitle, e.content, MergeSource.existing⟩
         else ⟨n.rawTitle, n.content, MergeSource.fromNew⟩
       | none => ⟨n.rawTitle, n.content, MergeSource.fromNew⟩) =
        (⟨n.rawTitle, n.content, MergeSource.fromNew⟩ : MergedSec) := by
      cases hf : es.find? (fun s => normalizeTitleL s.title = normalizeTitleL n.title) with
      | some e => simp [shouldPreserveSection]
      | none => rfl
    rw [mergeNewSections_cons, hhead, List.map_cons, mergeNewSections_empty_stu es rest]

/-- The custom-preservation loop only reads the title, raw heading and
content of the existing sections. -/
theorem mergeCustoms_congr (p : List (List Char)) :
    ∀ {l1 l2 : List MdSection},
      l1.map (fun s => (s.title, s.rawTitle, s.content)) =
        l2.map (fun s => (s.title, s.rawTitle, s.content)) →
      mergeCustoms p l1 = mergeCustoms p l2
  | [], l2, h => by
    rw [List.map_nil] at h
    have h2 : l2 = [] := List.map_eq_nil_iff.1 h.symm
    subst h2
    rfl
  | s :: l1, l2, h => by
    cases l2 with
    | nil => simp at h
    | cons s2 l2' =>
      rw [List.map_cons, List.map_cons] at h
      have h1 : (s.title, s.rawTitle, s.content) = (s2.title, s2.rawTitle, s2.content) :=
        (List.cons.injEq .. ▸ h).1
      have h2 : l1.map (fun s => (s.title, s.rawTitle, s.content)) =
          l2'.map (fun s => (s.title, s.rawTitle, s.content)) :=
        (List.cons.injEq .. ▸ h).2
      have ht : s.title = s2.title := congrArg (fun x => x.1) h1
      have hrt : s.rawTitle = s2.rawTitle := congrArg (fun x => x.2.1) h1
      have hc : s.content = s2.content := congrArg (fun x => x.2.2) h1
      have ih := mergeCustoms_congr p h2
      unfold mergeCustoms at ih ⊢
      rw [List.filter_cons, List.filter_cons]
      by_cases hp : (!(decide (normalizeTitleL s2.title ∈ p)) &&
          isCustomSection (normalizeTitleL s2.title)) = true
      · rw [if_pos (by rw [ht]; exact hp), if_pos hp, List.map_cons, List.map_cons]
        rw [hrt, hc, ih]
      · rw [if_neg (by rw [ht]; exact hp), if_neg hp]
        exact ih

theorem mergeReadmeContentL_default_eq (e n : List Char) :
    mergeReadmeContentL e n ⟨true, false, []⟩ =
      serializeMerged (getHeaderContentL n)
        (mergeNewSections (extractSectionsL e) [] (extractSectionsL n) ++
          mergeCustoms ((extractSectionsL n).map fun s => normalizeTitleL s.title)
            (extractSectionsL e)) := rfl

theorem mergeCustoms_append (p : List (List Char)) (l1 l2 : List MdSection) :
    mergeCustoms p (l1 ++ l2) = mergeCustoms p l1 ++ mergeCustoms p l2 := by
  unfold mergeCustoms
  rw [List.filter_append, List.map_append]

/-- Sections whose normalized titles are all already processed are never
appended by the custom-preservation loop. -/
theorem mergeCustoms_sub_nil (p : List (List Char)) :
    ∀ l : List MdSection, (∀ s ∈ l, normalizeTitleL s.title ∈ p) → mergeCustoms p l = []
  | [], _ => rfl
  | s :: l, h => by
    have hm : decide (normalizeTitleL s.title ∈ p) = true :=
      decide_eq_true (h s (List.mem_cons_self s l))
    have hng : ¬ ((!(decide (normalizeTitleL s.title ∈ p)) &&
        isCustomSection (normalizeTitleL s.title)) = true) := by
      rw [hm]
      simp
    unfold mergeCustoms
    rw [List.filter_cons, if_neg hng]
    have ih := mergeCustoms_sub_nil p l (fun t ht => h t (List.mem_cons_of_mem s ht))
    unfold mergeCustoms at ih
    exact ih

theorem mergeCustoms_cons (p : List (List Char)) (s : MdSection) (l : List MdSection) :
    mergeCustoms p (s :: l) =
      if (!(decide (normalizeTitleL s.title ∈ p)) &&
          isCustomSection (normalizeTitleL s.title)) = true then
        ⟨s.rawTitle, s.content, MergeSource.custom⟩ :: mergeCustoms p l
      else mergeCustoms p l := by
  show ((s :: l).filter (fun t => !(decide (normalizeTitleL t.title ∈ p)) &&
      isCustomSection (normalizeTitleL t.title))).map
      (fun t => (⟨t.rawTitle, t.content, MergeSource.custom⟩ : MergedSec)) =
    if (!(decide (normalizeTitleL s.title ∈ p)) &&
        isCustomSection (normalizeTitleL s.title)) = true then
      (⟨s.rawTitle, s.content, MergeSource.custom⟩ : MergedSec) ::
        (l.filter (fun t => !(decide (normalizeTitleL t.title ∈ p)) &&
          isCustomSection (normalizeTitleL t.title))).map
          (fun t => (⟨t.rawTitle, t.content, MergeSource.custom⟩ : MergedSec))
    else (l.filter (fun t => !(decide (normalizeTitleL t.title ∈ p)) &&
        isCustomSection (normalizeTitleL t.title))).map
        (fun t => (⟨t.rawTitle, t.content, MergeSource.custom⟩ : MergedSec))
  rw [List.filter_cons]
  by_cases hp : (!(decide (normalizeTitleL s.title ∈ p)) &&
      isCustomSection (normalizeTitleL s.title)) = true
  · rw [if_pos hp, if_pos hp, List.map_cons]
  · rw [if_neg hp, if_neg hp]

/-- Filtering by the custom-preservation predicate first does not change
what the custom-preservation loop appends. -/
theorem mergeCustoms_filter_self (p : List (List Char)) :
    ∀ l : List MdSection,
      mergeCustoms p (l.filter fun s =>
        !(decide (normalizeTitleL s.title ∈ p)) &&
          isCustomSection (normalizeTitleL s.title)) =
      mergeCustoms p l
  | [] => rfl
  | s :: l => by
    have ih := mergeCustoms_filter_self p l
    rw [List.filter_cons]
    by_cases hp : (!(decide (normalizeTitleL s.title ∈ p)) &&
        isCustomSection (normalizeTitleL s.title)) = true
    · rw [if_pos hp, mergeCustoms_cons, if_pos hp, mergeCustoms_cons, if_pos hp, ih]
    · rw [if_neg hp, mergeCustoms_cons, if_neg hp, ih]

/-- A document's own normalized titles are all processed, so running the
custom-preservation loop of a list against itself appends nothing. -/
theorem mergeCustoms_processed_nil (ns : List MdSection) :
    mergeCustoms (ns.map fun t => normalizeTitleL t.title) ns = [] := by
  apply mergeCustoms_sub_nil
  intro s hs
  exact List.mem_map_of_mem (fun t => normalizeTitleL t.title) hs

theorem mergedSectionList_default (e n : List Char) :
    mergedSectionList e n ⟨true, false, []⟩ =
      mergeNewSections (extractSectionsL e) [] (extractSectionsL n) ++
        mergeCustoms ((extractSectionsL n).map fun s => normalizeTitleL s.title)
          (extractSectionsL e) := rfl

/-- C10 counterexample: the full-policy merge is not idempotent. With
old = "" and new = "# A\n  ## Zzz\nbody", the section body of "# A" is
string-level trimmed during the first merge, which turns the indented line
"  ## Zzz" into a genuine heading of the merged output; the second merge
then re-parses it as an unmatched custom section and appends it again, so
merging twice differs from merging once. -/
theorem merge_idempotent_cex :
    mergeReadmeContentL
        (mergeReadmeContentL [] "# A\n  ## Zzz\nbody".data ⟨true, false, []⟩)
        "# A\n  ## Zzz\nbody".data ⟨true, false, []⟩ ≠
      mergeReadmeContentL [] "# A\n  ## Zzz\nbody".data ⟨true, false, []⟩ := by
  decide

/-- C10 (amended): the full-policy merge (preserveCustomSections = true,
preserveHeader = false, empty sectionsToUpdate) is idempotent whenever the
first merge's output re-parses section-faithfully, i.e. the
(title, rawTitle, content) projections of its parsed sections are exactly
those of the new document's sections followed by the preserved custom
sections of the old document. Under that hypothesis the second merge's
copy loop reproduces the new sections (an empty update list never
preserves), its custom loop drops every already-processed new title and
re-appends exactly the old document's preserved customs, and both merges
use the new document's header, so the outputs coincide. -/
theorem merge_idempotent_of_reparse (oldC newC : List Char)
    (H : (extractSectionsL (mergeReadmeContentL oldC newC ⟨true, false, []⟩)).map
        (fun s => (s.title, s.rawTitle, s.content)) =
      ((extractSectionsL newC) ++
        (extractSectionsL oldC).filter (fun s =>
          !(decide (normalizeTitleL s.title ∈
              (extractSectionsL newC).map fun t => normalizeTitleL t.title)) &&
          isCustomSection (normalizeTitleL s.title))).map
        (fun s => (s.title, s.rawTitle, s.content))) :
    mergeReadmeContentL (mergeReadmeContentL oldC newC ⟨true, false, []⟩) newC
        ⟨true, false, []⟩ =
      mergeReadmeContentL oldC newC ⟨true, false, []⟩ := by
  have hcongr := mergeCustoms_congr
    ((extractSectionsL newC).map fun s => normalizeTitleL s.title) H
  rw [mergeReadmeContentL_default_eq (mergeReadmeContentL oldC newC ⟨true, false, []⟩) newC,
    mergeNewSections_empty_stu, hcongr, mergeCustoms_append, mergeCustoms_filter_self,
    mergeCustoms_processed_nil, List.nil_append,
    mergeReadmeContentL_default_eq oldC newC, mergeNewSections_empty_stu]

theorem merge_idempotent_of_reparse_witness :
    ((extractSectionsL (mergeReadmeContentL "# A\nold\n## Mine\nkeep".data "# A\nnew".data
        ⟨true, false, []⟩)).map (fun s => (s.title, s.rawTitle, s.content)) =
      ((extractSectionsL "# A\nnew".data) ++
        (extractSectionsL "# A\nold\n## Mine\nkeep".data).filter (fun s =>
          !(decide (normalizeTitleL s.title ∈
              (extractSectionsL "# A\nnew".data).map fun t => normalizeTitleL t.title)) &&
          isCustomSection (normalizeTitleL s.title))).map
        (fun s => (s.title, s.rawTitle, s.content))) ∧
    mergeReadmeContentL
        (mergeReadmeContentL "# A\nold\n## Mine\nkeep".data "# A\nnew".data ⟨true, false, []⟩)
        "# A\nnew".data ⟨true, false, []⟩ =
      mergeReadmeContentL "# A\nold\n## Mine\nkeep".data "# A\nnew".data ⟨true, false, []⟩ :=
  ⟨by decide, merge_idempotent_of_reparse "# A\nold\n## Mine\nkeep".data "# A\nnew".data
    (by decide)⟩

theorem takeWhile_drop_decomp {α : Type} (p : α → Bool) (l : List α) :
    l = l.takeWhile p ++ l.drop (l.takeWhile p).length := by
  have h1 : l.takeWhile p = l.take (l.takeWhile p).length :=
    List.prefix_iff_eq_take.1 (List.takeWhile_prefix p)
  conv_lhs => rw [← List.take_append_drop (l.takeWhile p).length l]
  rw [← h1]

/-- A successful `matchTriple` consumes a nonempty prefix of its input. -/
theorem matchTriple_decomp (s cap rest : List Char)
    (h : matchTriple s = some (cap, rest)) : s = cap ++ rest ∧ cap ≠ [] := by
  simp only [matchTriple] at h
  split at h
  · exact Option.noConfusion h
  · split at h
    · split at h
      · exact Option.noConfusion h
      · split at h
        · split at h
          · exact Option.noConfusion h
          · injection h with h'
            rename_i hd1e x1 t2 heq1 hd2e x2 t3 heq2 hd3e
            have hcap : s.takeWhile isDigitC ++ '.' :: t2.takeWhile isDigitC ++
                '.' :: t3.takeWhile isDigitC = cap := congrArg Prod.fst h'
            have hrest : t3.drop (t3.takeWhile isDigitC).length = rest :=
              congrArg Prod.snd h'
            have e1 : s = s.takeWhile isDigitC ++ '.' :: t2 := by
              conv_lhs => rw [takeWhile_drop_decomp isDigitC s]
              rw [heq1]
            have e2 : t2 = t2.takeWhile isDigitC ++ '.' :: t3 := by
              conv_lhs => rw [takeWhile_drop_decomp isDigitC t2]
              rw [heq2]
            have e3 : t3 = t3.takeWhile isDigitC ++ rest := by
              conv_lhs => rw [takeWhile_drop_decomp isDigitC t3]
              rw [hrest]
            constructor
            · rw [e1, e2, e3, ← hcap]
              simp [List.append_assoc]
            · intro hnil
              rw [← hcap] at hnil
              simp at hnil
        · exact Option.noConfusion h
    · exact Option.noConfusion h

/-- A successful badge-rule match consumes a nonempty prefix of its input. -/
theorem matchBadgeRuleAt_decomp (s m rest : List Char)
    (h : matchBadgeRuleAt s = some (m, rest)) : s = m ++ rest ∧ m ≠ [] := by
  simp only [matchBadgeRuleAt] at h
  split at h
  · split at h
    · exact Option.noConfusion h
    · split at h
      · rename_i hpre hne x r heq
        injection h with h'
        have hm : npmBadgeLit ++ (s.drop npmBadgeLit.length).takeWhile
            (fun c => !(c = ')')) ++ [')'] = m := congrArg Prod.fst h'
        have hr : r = rest := congrArg Prod.snd h'
        obtain ⟨u, hu⟩ := List.isPrefixOf_iff_prefix.1 hpre
        have hd : s.drop npmBadgeLit.length = u := by
          rw [← hu]
          exact List.drop_left npmBadgeLit u
        have e1 : s = npmBadgeLit ++ s.drop npmBadgeLit.length := by
          rw [hd, hu]
        have e2 : s.drop npmBadgeLit.length =
            (s.drop npmBadgeLit.length).takeWhile (fun c => !(c = ')')) ++ ')' :: r := by
          conv_lhs => rw [takeWhile_drop_decomp (fun c => !(c = ')'))
            (s.drop npmBadgeLit.length)]
          rw [heq]
        constructor
        · rw [e1, e2, ← hm, ← hr]
          simp [List.append_assoc]
        · intro hnil
          rw [← hm] at hnil
          simp [npmBadgeLit] at hnil
      · exact Option.noConfusion h
  · exact Option.noConfusion h

/-- A successful keyword-rule match consumes a nonempty prefix of its input. -/
theorem matchVersionRuleAt_decomp (s m rest : List Char)
    (h : matchVersionRuleAt s = some (m, rest)) : s = m ++ rest ∧ m ≠ [] := by
  simp only [matchVersionRuleAt] at h
  split at h
  · exact Option.noConfusion h
  · split at h
    · exact Option.noConfusion h
    · split at h
      · rename_i x1 m0 t heq hw x2 cap rest0 heqT
        injection h with h'
        obtain ⟨hs, hmap⟩ := stripCI_sound "version".data s m0 t heq
        have hm0ne : m0 ≠ [] := by
          intro h0
          rw [h0] at hmap
          exact absurd hmap (by decide)
        have hm : m0 ++ t.takeWhile isSepC ++ cap = m := congrArg Prod.fst h'
        have hr : rest0 = rest := congrArg Prod.snd h'
        obtain ⟨e3, hcapne⟩ := matchTriple_decomp _ cap rest0 heqT
        constructor
        · rw [hs, ← hm, ← hr]
          conv_lhs => rw [takeWhile_drop_decomp isSepC t]
          rw [e3]
          simp [List.append_assoc]
        · rw [← hm]
          intro hnil
          rcases List.append_eq_nil.1 hnil with ⟨ha, -⟩
          rcases List.append_eq_nil.1 ha with ⟨hb, -⟩
          exact hm0ne hb
      · exact Option.noConfusion h

/-- A successful token-rule match consumes a nonempty prefix of its input. -/
theorem matchVTokenAt_decomp (prev : Option Char) (s m rest : List Char)
    (h : matchVTokenAt prev s = some (m, rest)) : s = m ++ rest ∧ m ≠ [] := by
  simp only [matchVTokenAt] at h
  split at h
  · split at h
    · exact Option.noConfusion h
    · split at h
      · split at h
        · split at h
          · exact Option.noConfusion h
          · rename_i s2 t hprev x2 cap rest0 heqT x3 c heqH hwc
            injection h with h'
            have hm : 'v' :: cap = m := congrArg Prod.fst h'
            have hr : rest0 = rest := congrArg Prod.snd h'
            obtain ⟨e3, -⟩ := matchTriple_decomp t cap rest0 heqT
            constructor
            · rw [← hm, ← hr, e3]
              rfl
            · rw [← hm]
              exact List.cons_ne_nil 'v' cap
        · rename_i s2 t hprev x2 cap rest0 heqT x3 heqH
          injection h with h'
          have hm : 'v' :: cap = m := congrArg Prod.fst h'
          have hr : rest0 = rest := congrArg Prod.snd h'
          obtain ⟨e3, -⟩ := matchTriple_decomp t cap rest0 heqT
          constructor
          · rw [← hm, ← hr, e3]
            rfl
          · rw [← hm]
            exact List.cons_ne_nil 'v' cap
      · exact Option.noConfusion h
  · exact Option.noConfusion h

/-- Canonical-form checker: at every position of the text, a match of
`matchAt` (if any) consumes exactly the replacement string `repl`. -/
def canonScanB (matchAt : List Char → Option (List Char × List Char))
    (repl : List Char) : List Char → Bool
  | [] => true
  | c :: cs =>
    (match matchAt (c :: cs) with
     | some (m, _) => decide (m = repl)
     | none => true) && canonScanB matchAt repl cs

/-- Canonical-form checker for the word-boundary token rule, threading the
previous character exactly as the scanner does. -/
def canonScanV (repl : List Char) : Option Char → List Char → Bool
  | _, [] => true
  | prev, c :: cs =>
    (match matchVTokenAt prev (c :: cs) with
     | some (m, _) => decide (m = repl)
     | none => true) && canonScanV repl (some c) cs

theorem canonScanB_head {matchAt : List Char → Option (List Char × List Char)}
    {repl : List Char} {c : Char} {cs m rest : List Char}
    (hall : canonScanB matchAt repl (c :: cs) = true)
    (hm : matchAt (c :: cs) = some (m, rest)) : m = repl := by
  simp only [canonScanB] at hall
  rw [hm] at hall
  have h2 : (decide (m = repl) && canonScanB matchAt repl cs) = true := hall
  exact of_decide_eq_true ((Bool.and_eq_true _ _ ▸ h2 : _ ∧ _)).1

theorem canonScanB_tail {matchAt : List Char → Option (List Char × List Char)}
    {repl : List Char} {c : Char} {cs : List Char}
    (hall : canonScanB matchAt repl (c :: cs) = true) :
    canonScanB matchAt repl cs = true := by
  simp only [canonScanB] at hall
  exact ((Bool.and_eq_true _ _ ▸ hall : _ ∧ _)).2

theorem canonScanB_drop {matchAt : List Char → Option (List Char × List Char)}
    {repl : List Char} :
    ∀ (n : Nat) (s : List Char), canonScanB matchAt repl s = true →
      canonScanB matchAt repl (s.drop n) = true
  | 0, _, h => h
  | _ + 1, [], h => h
  | n + 1, _ :: cs, h => canonScanB_drop n cs (canonScanB_tail h)

theorem canonScanV_head {repl : List Char} {prev : Option Char} {c : Char}
    {cs m rest : List Char}
    (hall : canonScanV repl prev (c :: cs) = true)
    (hm : matchVTokenAt prev (c :: cs) = some (m, rest)) : m = repl := by
  simp only [canonScanV] at hall
  rw [hm] at hall
  have h2 : (decide (m = repl) && canonScanV repl (some c) cs) = true := hall
  exact of_decide_eq_true ((Bool.and_eq_true _ _ ▸ h2 : _ ∧ _)).1

theorem canonScanV_tail {repl : List Char} {prev : Option Char} {c : Char}
    {cs : List Char} (hall : canonScanV repl prev (c :: cs) = true) :
    canonScanV repl (some c) cs = true := by
  simp only [canonScanV] at hall
  exact ((Bool.and_eq_true _ _ ▸ hall : _ ∧ _)).2

/-- The previous-character context after consuming `u`, starting from
context `prev`. -/
def lastOr (prev : Option Char) : List Char → Option Char
  | [] => prev
  | c :: u => lastOr (some c) u

theorem lastOr_cons (prev : Option Char) (c : Char) (u : List Char) :
    lastOr prev (c :: u) = lastOr (some c) u := rfl

theorem lastOr_eq_getLast? (prev : Option Char) :
    ∀ (m : List Char), m ≠ [] → lastOr prev m = m.getLast?
  | [], h => absurd rfl h
  | [_], _ => rfl
  | c :: d :: u, _ => by
    rw [lastOr_cons, lastOr_eq_getLast? (some c) (d :: u) (List.cons_ne_nil d u),
      List.getLast?_cons_cons]

theorem canonScanV_drop {repl : List Char} :
    ∀ (n : Nat) (prev : Option Char) (s : List Char), canonScanV repl prev s = true →
      canonScanV repl (lastOr prev (s.take n)) (s.drop n) = true
  | 0, prev, s, h => by
    rw [List.take_zero, List.drop_zero]
    exact h
  | _ + 1, prev, [], _ => rfl
  | n + 1, prev, c :: cs, h => by
    rw [show (c :: cs).take (n + 1) = c :: cs.take n from rfl,
      show (c :: cs).drop (n + 1) = cs.drop n from rfl, lastOr_cons]
    exact canonScanV_drop n (some c) cs (canonScanV_tail h)

/-- The badge replace is the identity on a text in which every badge match
is already the canonical replacement. -/
theorem badgeRuleScan_id (v : List Char) :
    ∀ (fuel : Nat) (s : List Char), s.length ≤ fuel →
      canonScanB matchBadgeRuleAt (npmBadgeRepl v) s = true → badgeRuleScan v fuel s = s
  | 0, _, _, _ => rfl
  | _ + 1, [], _, _ => rfl
  | fuel + 1, c :: cs, hf, hcanon => by
    rw [show badgeRuleScan v (fuel + 1) (c :: cs) =
      (match matchBadgeRuleAt (c :: cs) with
       | some (_, rest) => npmBadgeRepl v ++ badgeRuleScan v fuel rest
       | none => c :: badgeRuleScan v fuel cs) from rfl]
    cases hm : matchBadgeRuleAt (c :: cs) with
    | none =>
      show c :: badgeRuleScan v fuel cs = c :: cs
      rw [badgeRuleScan_id v fuel cs (Nat.le_of_succ_le_succ hf) (canonScanB_tail hcanon)]
    | some pr =>
      obtain ⟨m, rest⟩ := pr
      show npmBadgeRepl v ++ badgeRuleScan v fuel rest = c :: cs
      have hmr := canonScanB_head hcanon hm
      obtain ⟨hdec, hmne⟩ := matchBadgeRuleAt_decomp (c :: cs) m rest hm
      have h2 : 1 ≤ m.length := by
        cases m with
        | nil => exact absurd rfl hmne
        | cons _ _ => exact Nat.succ_le_succ (Nat.zero_le _)
      have h1 : (c :: cs).length = m.length + rest.length := by
        rw [hdec, List.length_append]
      have hlen : rest.length ≤ fuel := by
        have h3 := hf
        rw [h1] at h3
        omega
      have hrest : canonScanB matchBadgeRuleAt (npmBadgeRepl v) rest = true := by
        have h4 := canonScanB_drop m.length (c :: cs) hcanon
        rw [hdec, List.drop_left] at h4
        exact h4
      rw [badgeRuleScan_id v fuel rest hlen hrest, ← hmr, ← hdec]

/-- The keyword replace is the identity on a text in which every keyword
match is already the canonical replacement. -/
theorem versionRuleScan_id (v : List Char) :
    ∀ (fuel : Nat) (s : List Char), s.length ≤ fuel →
      canonScanB matchVersionRuleAt (versionKwRepl v) s = true → versionRuleScan v fuel s = s
  | 0, _, _, _ => rfl
  | _ + 1, [], _, _ => rfl
  | fuel + 1, c :: cs, hf, hcanon => by
    rw [show versionRuleScan v (fuel + 1) (c :: cs) =
      (match matchVersionRuleAt (c :: cs) with
       | some (_, rest) => versionKwRepl v ++ versionRuleScan v fuel rest
       | none => c :: versionRuleScan v fuel cs) from rfl]
    cases hm : matchVersionRuleAt (c :: cs) with
    | none =>
      show c :: versionRuleScan v fuel cs = c :: cs
      rw [versionRuleScan_id v fuel cs (Nat.le_of_succ_le_succ hf) (canonScanB_tail hcanon)]
    | some pr =>
      obtain ⟨m, rest⟩ := pr
      show versionKwRepl v ++ versionRuleScan v fuel rest = c :: cs
      have hmr := canonScanB_head hcanon hm
      obtain ⟨hdec, hmne⟩ := matchVersionRuleAt_decomp (c :: cs) m rest hm
      have h2 : 1 ≤ m.length := by
        cases m with
        | nil => exact absurd rfl hmne
        | cons _ _ => exact Nat.succ_le_succ (Nat.zero_le _)
      have h1 : (c :: cs).length = m.length + rest.length := by
        rw [hdec, List.length_append]
      have hlen : rest.length ≤ fuel := by
        have h3 := hf
        rw [h1] at h3
        omega
      have hrest : canonScanB matchVersionRuleAt (versionKwRepl v) rest = true := by
        have h4 := canonScanB_drop m.length (c :: cs) hcanon
        rw [hdec, List.drop_left] at h4
        exact h4
      rw [versionRuleScan_id v fuel rest hlen hrest, ← hmr, ← hdec]

/-- The token replace is the identity on a text in which every token match
is already the canonical replacement. -/
theorem vTokenScan_id (v : List Char) :
    ∀ (fuel : Nat) (prev : Option Char) (s : List Char), s.length ≤ fuel →
      canonScanV (vTokenRepl v) prev s = true → vTokenScan v fuel prev s = s
  | 0, _, _, _, _ => rfl
  | _ + 1, _, [], _, _ => rfl
  | fuel + 1, prev, c :: cs, hf, hcanon => by
    rw [show vTokenScan v (fuel + 1) prev (c :: cs) =
      (match matchVTokenAt prev (c :: cs) with
       | some (m, rest) => vTokenRepl v ++ vTokenScan v fuel m.getLast? rest
       | none => c :: vTokenScan v fuel (some c) cs) from rfl]
    cases hm : matchVTokenAt prev (c :: cs) with
    | none =>
      show c :: vTokenScan v fuel (some c) cs = c :: cs
      rw [vTokenScan_id v fuel (some c) cs (Nat.le_of_succ_le_succ hf) (canonScanV_tail hcanon)]
    | some pr =>
      obtain ⟨m, rest⟩ := pr
      show vTokenRepl v ++ vTokenScan v fuel m.getLast? rest = c :: cs
      have hmr := canonScanV_head hcanon hm
      obtain ⟨hdec, hmne⟩ := matchVTokenAt_decomp prev (c :: cs) m rest hm
      have h2 : 1 ≤ m.length := by
        cases m with
        | nil => exact absurd rfl hmne
        | cons _ _ => exact Nat.succ_le_succ (Nat.zero_le _)
      have h1 : (c :: cs).length = m.length + rest.length := by
        rw [hdec, List.length_append]
      have hlen : rest.length ≤ fuel := by
        have h3 := hf
        rw [h1] at h3
        omega
      have hrest : canonScanV (vTokenRepl v) m.getLast? rest = true := by
        have h4 := canonScanV_drop m.length prev (c :: cs) hcanon
        rw [hdec, List.take_left, List.drop_left, lastOr_eq_getLast? prev m hmne] at h4
        exact h4
      rw [vTokenScan_id v fuel m.getLast? rest hlen hrest, ← hmr, ← hdec]

/-- C4 counterexample: the version patcher is not idempotent for every
version string. With the non-semver version "1.2.3.4", patching
"version 0.0.0" once yields "version 1.2.3.4"; a second pass re-matches
its leading "version 1.2.3" and rewrites the text to "version 1.2.3.4.4". -/
theorem version_patch_cex :
    updateVersionInReadmeL (updateVersionInReadmeL "version 0.0.0".data "1.2.3.4".data)
        "1.2.3.4".data ≠
      updateVersionInReadmeL "version 0.0.0".data "1.2.3.4".data := by
  decide

/-- C4 (amended): the version patcher is idempotent on any input whose
once-patched text is in canonical form: every badge-pattern match in it
consumes exactly the canonical badge, every keyword-pattern match consumes
exactly "version " followed by the new version, and every token-pattern
match consumes exactly "v" followed by the new version. Each of the three
global replaces is then the identity on the once-patched text, so the
second application changes nothing. For a semver-shaped new version these
canonical-form conditions hold (see the witness); for a version like
"1.2.3.4" they fail, and so does idempotence. -/
theorem version_patch_idempotent_of_canonical (t v : List Char)
    (hA : canonScanB matchBadgeRuleAt (npmBadgeRepl v) (updateVersionInReadmeL t v) = true)
    (hB : canonScanB matchVersionRuleAt (versionKwRepl v) (updateVersionInReadmeL t v) = true)
    (hC : canonScanV (vTokenRepl v) none (updateVersionInReadmeL t v) = true) :
    updateVersionInReadmeL (updateVersionInReadmeL t v) v = updateVersionInReadmeL t v := by
  show replaceVTokenRule v
      (replaceVersionRule v (replaceBadgeRule v (updateVersionInReadmeL t v))) =
    updateVersionInReadmeL t v
  rw [show replaceBadgeRule v (updateVersionInReadmeL t v) = updateVersionInReadmeL t v from
      badgeRuleScan_id v (updateVersionInReadmeL t v).length (updateVersionInReadmeL t v)
        (Nat.le_refl _) hA,
    show replaceVersionRule v (updateVersionInReadmeL t v) = updateVersionInReadmeL t v from
      versionRuleScan_id v (updateVersionInReadmeL t v).length (updateVersionInReadmeL t v)
        (Nat.le_refl _) hB,
    show replaceVTokenRule v (updateVersionInReadmeL t v) = updateVersionInReadmeL t v from
      vTokenScan_id v (updateVersionInReadmeL t v).length none (updateVersionInReadmeL t v)
        (Nat.le_refl _) hC]

theorem version_patch_idempotent_of_canonical_witness :
    (canonScanB matchBadgeRuleAt (npmBadgeRepl "9.8.7".data)
        (updateVersionInReadmeL "Version: 1.0.0, v2.3.4".data "9.8.7".data) = true) ∧
    (canonScanB matchVersionRuleAt (versionKwRepl "9.8.7".data)
        (updateVersionInReadmeL "Version: 1.0.0, v2.3.4".data "9.8.7".data) = true) ∧
    (canonScanV (vTokenRepl "9.8.7".data) none
        (updateVersionInReadmeL "Version: 1.0.0, v2.3.4".data "9.8.7".data) = true) ∧
    updateVersionInReadmeL
        (updateVersionInReadmeL "Version: 1.0.0, v2.3.4".data "9.8.7".data) "9.8.7".data =
      updateVersionInReadmeL "Version: 1.0.0, v2.3.4".data "9.8.7".data :=
  ⟨by decide, by decide, by decide,
    version_patch_idempotent_of_canonical "Version: 1.0.0, v2.3.4".data "9.8.7".data
      (by decide) (by decide) (by decide)⟩
